import Mathlib

/-!
# Order book store of the Coinbase order-book visualizer

A shallow embedding of `CoinbaseOrderBook` (src/src/OrderBook.hpp, src/src/OrderBook.cpp,
and the single-file variant in src/main.cpp) and of `handleMessage` of
`CoinbaseWebSocketClient` (src/src/WebSocketClient.cpp, and the variant in src/main.cpp),
together with the properties of the update, query and message-handling operations.

Modelling conventions.

* `double` prices and quantities are exact rationals (`ℚ`): comparisons, subtraction and
  division are the exact ones, so no rounding, NaN or signed zero is represented.  The
  literal `0.05` is the rational 1/20.
* `std::map<double, OrderBookLevel>` is the list of its (key, value) entries in iteration
  order, that is, in strictly ascending key order (`LevelMap.Ordered`).
* `std::chrono::system_clock::now()` is an explicit argument `now` of the operations that
  read the clock.
* The mutex is not represented: every method that locks is a function of one book state.
  The two queries that lock twice are also given with the state of each read made explicit.
-/

/-- The struct `OrderBookLevel` of OrderBook.hpp. -/
structure OrderBookLevel where
  price : ℚ
  quantity : ℚ
  timestamp : String
deriving DecidableEq

/-- Entries of a `std::map<double, OrderBookLevel>` in iteration (ascending key) order. -/
abbrev LevelMap := List (ℚ × OrderBookLevel)

namespace LevelMap

/-- Representation invariant of `std::map`: keys strictly ascending (hence unique). -/
def Ordered (m : LevelMap) : Prop := List.Pairwise (fun a b => a.1 < b.1) m

/-- The value stored under `key`, if any (`std::map::find`). -/
def find? : LevelMap → ℚ → Option OrderBookLevel
  | [], _ => none
  | (k, v) :: rest, key => if k = key then some v else find? rest key

/-- The call `std::map::erase(key)`: removes the entry whose key is equivalent to `key`. -/
def erase : LevelMap → ℚ → LevelMap
  | [], _ => []
  | (k, v) :: rest, key =>
    if key < k then (k, v) :: rest
    else if k < key then (k, v) :: erase rest key
    else rest

/-- The statement `m[key] = value`: `operator[]` finds or creates the entry at `key`, at its
place in key order, and the assignment overwrites its value. -/
def assign : LevelMap → ℚ → OrderBookLevel → LevelMap
  | [], key, value => [(key, value)]
  | (k, v) :: rest, key, value =>
    if key < k then (key, value) :: (k, v) :: rest
    else if k < key then (k, v) :: assign rest key value
    else (k, value) :: rest

end LevelMap

/-- The data members `bids`, `asks`, `symbol`, `last_update` of class `CoinbaseOrderBook`. -/
structure CoinbaseOrderBook where
  bids : LevelMap
  asks : LevelMap
  symbol : String
  last_update : Nat

namespace CoinbaseOrderBook

/-- The constructor `CoinbaseOrderBook(sym)`: both sides empty. -/
def new (sym : String) (now : Nat) : CoinbaseOrderBook :=
  { bids := [], asks := [], symbol := sym, last_update := now }

/-- The method `updateLevel` of src/src/OrderBook.cpp:
`auto& book = (side == "bid") ? bids : asks;` then erase below 0.05, else assign. -/
def updateLevel (b : CoinbaseOrderBook) (side : String) (price quantity : ℚ)
    (timestamp : String) (now : Nat) : CoinbaseOrderBook :=
  let book := if side = "bid" then b.bids else b.asks
  let book1 :=
    if quantity < 0.05 then book.erase price
    else book.assign price (OrderBookLevel.mk price quantity timestamp)
  if side = "bid" then { b with bids := book1, last_update := now }
  else { b with asks := book1, last_update := now }

/-- The loop shared by `getBids` and `getAsks`:
`for (int i = 0; i < depth && it != end; ++i, ++it) result.push_back(it->second);`
where the list argument is what the iterator `it` has still to visit.  The counter is
incremented only while it is below `depth`, so it never leaves the range of `int`. -/
def collect (depth : Int) : Int → List (ℚ × OrderBookLevel) → List OrderBookLevel →
    List OrderBookLevel
  | _, [], result => result
  | i, e :: rest, result =>
    if i < depth then collect depth (i + 1) rest (result ++ [e.2]) else result

/-- The method `getBids`: iterates from `bids.rbegin()`. -/
def getBids (b : CoinbaseOrderBook) (depth : Int) : List OrderBookLevel :=
  collect depth 0 b.bids.reverse []

/-- The method `getAsks`: iterates from `asks.begin()`. -/
def getAsks (b : CoinbaseOrderBook) (depth : Int) : List OrderBookLevel :=
  collect depth 0 b.asks []

/-- The method `getBestBid`: `bids.empty() ? 0.0 : bids.rbegin()->first`. -/
def getBestBid (b : CoinbaseOrderBook) : ℚ :=
  match b.bids.getLast? with
  | none => 0
  | some e => e.1

/-- The method `getBestAsk`: `asks.empty() ? 0.0 : asks.begin()->first`. -/
def getBestAsk (b : CoinbaseOrderBook) : ℚ :=
  match b.asks.head? with
  | none => 0
  | some e => e.1

/-- The method `getSpread`. -/
def getSpread (b : CoinbaseOrderBook) : ℚ :=
  let bid := b.getBestBid
  let ask := b.getBestAsk
  if 0 < bid ∧ 0 < ask then ask - bid else 0

/-- The method `getSpreadBps`. -/
def getSpreadBps (b : CoinbaseOrderBook) : ℚ :=
  let bid := b.getBestBid
  let ask := b.getBestAsk
  if 0 < bid ∧ 0 < ask then ((ask - bid) / ((ask + bid) / 2)) * 10000 else 0

/-- The method `getBidLevels`: `bids.size()`. -/
def getBidLevels (b : CoinbaseOrderBook) : Nat := b.bids.length

/-- The method `getAskLevels`: `asks.size()`. -/
def getAskLevels (b : CoinbaseOrderBook) : Nat := b.asks.length

end CoinbaseOrderBook

/-- One call `updateLevel(side, price, quantity, timestamp)`, with the clock value it reads. -/
structure UpdateCall where
  side : String
  price : ℚ
  quantity : ℚ
  timestamp : String
  now : Nat

namespace CoinbaseOrderBook

/-- Performs one recorded call on a book. -/
def applyCall (b : CoinbaseOrderBook) (c : UpdateCall) : CoinbaseOrderBook :=
  b.updateLevel c.side c.price c.quantity c.timestamp c.now

/-- Performs a sequence of calls, first to last. -/
def replay (b : CoinbaseOrderBook) (cs : List UpdateCall) : CoinbaseOrderBook :=
  cs.foldl applyCall b

/-- The scenario of the specification: a bid at 100.00 for 2.0 and an ask at 100.50 for 1.5. -/
def scenarioCalls : List UpdateCall :=
  [UpdateCall.mk "bid" 100 2 "" 1, UpdateCall.mk "ask" 100.5 1.5 "" 2]

/-- A bid at price 0 and an ask at 100.50. -/
def zeroBidCalls : List UpdateCall :=
  [UpdateCall.mk "bid" 0 2 "" 1, UpdateCall.mk "ask" 100.5 1.5 "" 2]

/-- A bid at price 0 and an ask at price 0. -/
def zeroBothCalls : List UpdateCall :=
  [UpdateCall.mk "bid" 0 2 "" 1, UpdateCall.mk "ask" 0 1.5 "" 2]

/-- Division as exact arithmetic has it: undefined for a zero divisor. -/
def checkedDiv (x y : ℚ) : Option ℚ := if y = 0 then none else some (x / y)

/-- The basis-point spread as the specification words it: `(spread / midpoint) × 10000`
with midpoint `(bestBid + bestAsk) / 2` when both sides are non-empty, else 0.  The value is
`none` where that formula divides by zero. -/
def spreadBasisPointsSpec (b : CoinbaseOrderBook) : Option ℚ :=
  if b.bids ≠ [] ∧ b.asks ≠ [] then
    (checkedDiv b.getSpread ((b.getBestBid + b.getBestAsk) / 2)).map (fun x => x * 10000)
  else some 0

/-- The method `getSpreadBps` with its division made explicit: `none` if the divisor of the
division it performs is zero. -/
def getSpreadBpsChecked (b : CoinbaseOrderBook) : Option ℚ :=
  let bid := b.getBestBid
  let ask := b.getBestAsk
  if 0 < bid ∧ 0 < ask then
    (checkedDiv (ask - bid) ((ask + bid) / 2)).map (fun x => x * 10000)
  else some 0

end CoinbaseOrderBook

namespace MainCpp

/-- The method `updateLevel` of the single-file program src/main.cpp: the side tags are
"bid" and "offer", any other tag changes neither side, and a level is erased only when the
quantity is exactly zero. -/
def updateLevel (b : CoinbaseOrderBook) (side : String) (price quantity : ℚ)
    (timestamp : String) (now : Nat) : CoinbaseOrderBook :=
  if side = "bid" then
    if quantity = 0 then { b with bids := b.bids.erase price, last_update := now }
    else { b with bids := b.bids.assign price (OrderBookLevel.mk price quantity timestamp),
                  last_update := now }
  else if side = "offer" then
    if quantity = 0 then { b with asks := b.asks.erase price, last_update := now }
    else { b with asks := b.asks.assign price (OrderBookLevel.mk price quantity timestamp),
                  last_update := now }
  else { b with last_update := now }

/-- Performs one recorded call with the method of src/main.cpp. -/
def applyCall (b : CoinbaseOrderBook) (c : UpdateCall) : CoinbaseOrderBook :=
  updateLevel b c.side c.price c.quantity c.timestamp c.now

/-- Performs a sequence of calls with the method of src/main.cpp, first to last. -/
def replay (b : CoinbaseOrderBook) (cs : List UpdateCall) : CoinbaseOrderBook :=
  cs.foldl applyCall b

end MainCpp

/-! ## Observations used to state the properties -/

namespace CoinbaseOrderBook

/-- Both collections satisfy the representation invariant of `std::map`. -/
def WellFormed (b : CoinbaseOrderBook) : Prop := b.bids.Ordered ∧ b.asks.Ordered

/-- The collection that `updateLevel` of src/src/OrderBook.cpp works on for a side tag:
`(side == "bid") ? bids : asks`. -/
def selected (b : CoinbaseOrderBook) (side : String) : LevelMap :=
  if side = "bid" then b.bids else b.asks

/-- The collection that `updateLevel` of src/src/OrderBook.cpp does not work on. -/
def opposite (b : CoinbaseOrderBook) (side : String) : LevelMap :=
  if side = "bid" then b.asks else b.bids

/-- A book with two bid levels and one ask level, used to instantiate the theorems. -/
def sampleBook : CoinbaseOrderBook :=
  { bids := [(99, OrderBookLevel.mk 99 1 "t0"), (100, OrderBookLevel.mk 100 3 "t1")],
    asks := [(101, OrderBookLevel.mk 101 4 "t2")],
    symbol := "BTC-USD",
    last_update := 3 }

/-- A call sequence used to instantiate the theorems: three bids and two asks, one bid
replaced and one removed. -/
def sampleCalls : List UpdateCall :=
  [UpdateCall.mk "bid" 100 2 "t1" 1, UpdateCall.mk "offer" 101 3 "t2" 2,
   UpdateCall.mk "bid" 99 1 "t3" 3, UpdateCall.mk "bid" 98 4 "t4" 4,
   UpdateCall.mk "offer" 102 5 "t5" 5, UpdateCall.mk "bid" 100 7 "t6" 6,
   UpdateCall.mk "bid" 98 0 "t7" 7]

/-- Whether a call addresses the pair made of a side (the bid side when `bidSide`, the ask
side otherwise) and the price `p`.  In src/src/OrderBook.cpp the tag "bid" selects the bid
side and every other tag selects the ask side. -/
def addresses (bidSide : Bool) (p : ℚ) (c : UpdateCall) : Bool :=
  (decide (c.side = "bid") == bidSide) && decide (c.price = p)

/-- The last call of a sequence that addresses the pair (side, `p`), if any. -/
def lastCall (bidSide : Bool) (p : ℚ) (cs : List UpdateCall) : Option UpdateCall :=
  cs.reverse.find? (addresses bidSide p)

/-- The last-writer-wins content of the pair (side, `p`) after a sequence of calls: absent
when no call addresses the pair or the last one has a quantity below the removal threshold,
else the level with the quantity and timestamp of the last call. -/
def lastWriterLevel (bidSide : Bool) (p : ℚ) (cs : List UpdateCall) : Option OrderBookLevel :=
  match lastCall bidSide p cs with
  | none => none
  | some c =>
    if c.quantity < 0.05 then none else some (OrderBookLevel.mk p c.quantity c.timestamp)

/-- Whether two calls address the same (side, price) pair. -/
def sameTarget (c d : UpdateCall) : Bool :=
  (decide (c.side = "bid") == decide (d.side = "bid")) && decide (c.price = d.price)

/-- The calls of a sequence that are the last one for their (side, price) pair, in their
original order. -/
def keepLast : List UpdateCall → List UpdateCall
  | [] => []
  | c :: rest => if rest.any (sameTarget c) then keepLast rest else c :: keepLast rest

end CoinbaseOrderBook

namespace MainCpp

/-- Whether a call addresses the pair (side, `p`) in src/main.cpp: the tag "bid" selects the
bid side, the tag "offer" the ask side, and any other tag addresses nothing. -/
def addressesMain (bidSide : Bool) (p : ℚ) (c : UpdateCall) : Bool :=
  decide (c.side = if bidSide then "bid" else "offer") && decide (c.price = p)

/-- The last-writer-wins content of the pair (side, `p`) with the removal rule of
src/main.cpp: absent when no call addresses the pair or the last one has quantity zero. -/
def lastWriterLevelMain (bidSide : Bool) (p : ℚ) (cs : List UpdateCall) :
    Option OrderBookLevel :=
  match cs.reverse.find? (addressesMain bidSide p) with
  | none => none
  | some c =>
    if c.quantity = 0 then none else some (OrderBookLevel.mk p c.quantity c.timestamp)

end MainCpp

namespace CoinbaseOrderBook

/-- A bid at 101 followed by an ask at 100: the bid is above the ask. -/
def crossedCalls : List UpdateCall :=
  [UpdateCall.mk "bid" 101 1 "" 1, UpdateCall.mk "offer" 100 1 "" 2]

end CoinbaseOrderBook

/-! ## The message handler

`handleMessage` of `CoinbaseWebSocketClient` (src/src/WebSocketClient.cpp, and the variant
in src/main.cpp) uses the library `nlohmann::json` and `std::stod`.  The library values
and the handful of operations the handler calls are embedded below with the behaviour the
library documents; `std::stod` is a parameter `stod`, with `none` where it throws.  The
handler receives the outcome of `json::parse(message)`: `none` where parsing throws.  Its
argument `now` is the value of the clock at the `updateLevel` calls of the message; each
call overwrites `last_update`, so only the value at the last call is kept. -/

/-- A value of `nlohmann::json`.  The members of an object are listed in the order of the
underlying `std::map`. -/
inductive Json where
  | null
  | boolean (b : Bool)
  | number (x : ℚ)
  | string (s : String)
  | array (items : List Json)
  | object (members : List (String × Json))

/-- The exceptions, all derived from `std::exception`, that the handler can meet:
`json::parse_error` from `json::parse`, `json::type_error` from `operator[]` on a value that
is not an object and from a conversion of a value that is not a string, and
`std::invalid_argument` or `std::out_of_range` from `std::stod`. -/
inductive DecodeException where
  | parse_error
  | type_error
  | stod_failure
deriving DecidableEq

/-- Outcome of evaluating an expression of the handler: a value, a thrown exception, or
behaviour the library leaves undefined (`operator[]` on a const object with a key the object
does not have, which is guarded only by an assertion). -/
inductive Eval (α : Type) where
  | value (a : α)
  | thrown (e : DecodeException)
  | undefined

namespace Eval

/-- Sequencing: the rest of the statement runs only on a value. -/
def andThen {α β : Type} (x : Eval α) (f : α → Eval β) : Eval β :=
  match x with
  | value a => f a
  | thrown e => thrown e
  | undefined => undefined

end Eval

instance : Monad Eval where
  pure := Eval.value
  bind := Eval.andThen

namespace Json

/-- The member stored under `key`, when the value is an object that has one. -/
def find (j : Json) (key : String) : Option Json :=
  match j with
  | object members => members.lookup key
  | _ => none

/-- The call `j.contains(key)`: false for a value that is not an object. -/
def contains (j : Json) (key : String) : Bool := (j.find key).isSome

/-- The expression `j[key]` evaluated after `j.contains(key)` returned true: the member. -/
def member (j : Json) (key : String) : Json := (j.find key).getD null

/-- The expression `j[key]` on a const value: the member of an object that has the key,
undefined for an object that lacks it, `type_error` for a value that is not an object. -/
def index (j : Json) (key : String) : Eval Json :=
  match j with
  | object members =>
    match members.lookup key with
    | some v => Eval.value v
    | none => Eval.undefined
  | _ => Eval.thrown DecodeException.type_error

/-- The comparison `j == "text"`: true for the string with that text only. -/
def isString (j : Json) (text : String) : Bool :=
  match j with
  | string s => decide (s = text)
  | _ => false

/-- Conversion to `std::string`, implicit or by `get<std::string>()`. -/
def getString (j : Json) : Eval String :=
  match j with
  | string s => Eval.value s
  | _ => Eval.thrown DecodeException.type_error

/-- The call `j.value(key, fallback)` with a string fallback. -/
def valueOr (j : Json) (key : String) (fallback : String) : Eval String :=
  match j with
  | object members =>
    match members.lookup key with
    | some v => v.getString
    | none => Eval.value fallback
  | _ => Eval.thrown DecodeException.type_error

/-- What a range-based `for` over the value visits: the items of an array, the member values
of an object, nothing for null, and the value itself once for any other value. -/
def elements (j : Json) : List Json :=
  match j with
  | null => []
  | array items => items
  | object members => members.map Prod.snd
  | other => [other]

end Json

/-- The call `std::stod(text)`: throws where `stod` has no value. -/
def stodEval (stod : String → Option ℚ) (text : String) : Eval ℚ :=
  match stod text with
  | some x => Eval.value x
  | none => Eval.thrown DecodeException.stod_failure

/-- The four declarations at the head of the body of the loop over `event["updates"]`:
`side`, `price`, `quantity`, `timestamp`, evaluated in that order. -/
def decodeUpdate (stod : String → Option ℚ) (update : Json) :
    Eval (String × ℚ × ℚ × String) := do
  let side ← (← update.index "side").getString
  let price ← stodEval stod (← (← update.index "price_level").getString)
  let quantity ← stodEval stod (← (← update.index "new_quantity").getString)
  let timestamp ← update.valueOr "event_time" ""
  pure (side, price, quantity, timestamp)

/-- How a run of statements that mutate the book ends: normally, by a thrown exception, or
in undefined behaviour.  The book is updated in place, so an exception leaves it as the
statements before the throw made it. -/
inductive Run where
  | normal (book : CoinbaseOrderBook)
  | thrown (book : CoinbaseOrderBook) (e : DecodeException)
  | undefined

/-- The loop `for (const auto& update : event["updates"]) { ...; order_book.updateLevel(side,
price, quantity, timestamp); }`, where `upd` is the `updateLevel` the call resolves to, `now`
the clock value the calls read, and the list is what the loop has still to visit. -/
def applyUpdates
    (upd : CoinbaseOrderBook → String → ℚ → ℚ → String → Nat → CoinbaseOrderBook)
    (stod : String → Option ℚ) (now : Nat) : List Json → CoinbaseOrderBook → Run
  | [], b => Run.normal b
  | update :: rest, b =>
    match decodeUpdate stod update with
    | Eval.value (side, price, quantity, timestamp) =>
      applyUpdates upd stod now rest (upd b side price quantity timestamp now)
    | Eval.thrown e => Run.thrown b e
    | Eval.undefined => Run.undefined

/-- The loop `for (const auto& event : j["events"]) body`, where the list is what the loop
has still to visit. -/
def forEvents (body : Json → CoinbaseOrderBook → Run) : List Json → CoinbaseOrderBook → Run
  | [], b => Run.normal b
  | event :: rest, b =>
    match body event b with
    | Run.normal b1 => forEvents body rest b1
    | Run.thrown b1 e => Run.thrown b1 e
    | Run.undefined => Run.undefined

/-- What a call of `handleMessage` that returns leaves behind: the book, and the exceptions
its `catch` block reported on `std::cerr`. -/
structure Handled where
  book : CoinbaseOrderBook
  reported : List DecodeException

/-- The `try { ... } catch (const std::exception& e) { report }` around the body of
`handleMessage`: a thrown exception is reported and the function returns; undefined
behaviour has no outcome. -/
def Run.caught (r : Run) : Option Handled :=
  match r with
  | Run.normal b => some (Handled.mk b [])
  | Run.thrown b e => some (Handled.mk b [e])
  | Run.undefined => none

namespace CoinbaseWebSocketClient

/-- The body of the loop over `j["events"]` in src/src/WebSocketClient.cpp. -/
def handleEvent (stod : String → Option ℚ) (now : Nat) (event : Json)
    (b : CoinbaseOrderBook) : Run :=
  if event.contains "type" && (event.member "type").isString "update" then
    match event.index "updates" with
    | Eval.value updates =>
      applyUpdates CoinbaseOrderBook.updateLevel stod now updates.elements b
    | Eval.thrown e => Run.thrown b e
    | Eval.undefined => Run.undefined
  else if event.contains "type" && (event.member "type").isString "snapshot" then
    match event.index "updates" with
    | Eval.value updates =>
      applyUpdates CoinbaseOrderBook.updateLevel stod now updates.elements b
    | Eval.thrown e => Run.thrown b e
    | Eval.undefined => Run.undefined
  else Run.normal b

/-- The method `handleMessage` of src/src/WebSocketClient.cpp, given the outcome `parsed` of
`json::parse(message)`. -/
def handleMessage (stod : String → Option ℚ) (b : CoinbaseOrderBook) (parsed : Option Json)
    (now : Nat) : Option Handled :=
  match parsed with
  | none => some (Handled.mk b [DecodeException.parse_error])
  | some j =>
    if j.contains "channel" && (j.member "channel").isString "l2_data" then
      if j.contains "events" then
        (forEvents (handleEvent stod now) (j.member "events").elements b).caught
      else some (Handled.mk b [])
    else some (Handled.mk b [])

end CoinbaseWebSocketClient

namespace MainCpp

/-- The body of the loop over `j["events"]` in src/main.cpp, which tests
`event.contains("updates")` before the inner loop. -/
def handleEvent (stod : String → Option ℚ) (now : Nat) (event : Json)
    (b : CoinbaseOrderBook) : Run :=
  if event.contains "type" && (event.member "type").isString "update" then
    if event.contains "updates" then
      applyUpdates updateLevel stod now (event.member "updates").elements b
    else Run.normal b
  else if event.contains "type" && (event.member "type").isString "snapshot" then
    if event.contains "updates" then
      applyUpdates updateLevel stod now (event.member "updates").elements b
    else Run.normal b
  else Run.normal b

/-- The method `handleMessage` of src/main.cpp, given the outcome `parsed` of
`json::parse(message)`. -/
def handleMessage (stod : String → Option ℚ) (b : CoinbaseOrderBook) (parsed : Option Json)
    (now : Nat) : Option Handled :=
  match parsed with
  | none => some (Handled.mk b [DecodeException.parse_error])
  | some j =>
    if j.contains "channel" && (j.member "channel").isString "l2_data" then
      if j.contains "events" then
        (forEvents (handleEvent stod now) (j.member "events").elements b).caught
      else some (Handled.mk b [])
    else some (Handled.mk b [])

end MainCpp

/-! ## The wire schema of the specification -/

/-- One update item of the wire schema: `side`, `price_level` and `new_quantity` as text, and
an optional `event_time`. -/
structure WireUpdate where
  side : String
  price_level : String
  new_quantity : String
  event_time : Option String

/-- One event of the wire schema: its `type` tag and its `updates`. -/
structure WireEvent where
  type : String
  updates : List WireUpdate

namespace WireUpdate

/-- The JSON value `j` is an object that carries the item: its members `side`, `price_level`
and `new_quantity` are the strings of the item, and `event_time` is the string of the item
or is absent with it.  Other members are allowed. -/
def Encodes (u : WireUpdate) (j : Json) : Prop :=
  j.find "side" = some (Json.string u.side) ∧
  j.find "price_level" = some (Json.string u.price_level) ∧
  j.find "new_quantity" = some (Json.string u.new_quantity) ∧
  j.find "event_time" = u.event_time.map Json.string

/-- The object with exactly the members of the item. -/
def toJson (u : WireUpdate) : Json :=
  Json.object
    ([("side", Json.string u.side), ("price_level", Json.string u.price_level),
      ("new_quantity", Json.string u.new_quantity)] ++
      match u.event_time with
      | some t => [("event_time", Json.string t)]
      | none => [])

/-- Both numerals of the item are texts that `std::stod` converts. -/
def Convertible (stod : String → Option ℚ) (u : WireUpdate) : Prop :=
  (stod u.price_level).isSome = true ∧ (stod u.new_quantity).isSome = true

/-- The call the item stands for: `updateLevel(side, parsed price_level, parsed new_quantity,
event_time or the empty string when absent)`. -/
def call (stod : String → Option ℚ) (now : Nat) (u : WireUpdate) : UpdateCall :=
  UpdateCall.mk u.side ((stod u.price_level).getD 0) ((stod u.new_quantity).getD 0)
    (u.event_time.getD "") now

end WireUpdate

namespace WireEvent

/-- The event carries one of the two tags with update lists. -/
def isData (e : WireEvent) : Bool := decide (e.type = "snapshot") || decide (e.type = "update")

/-- The JSON value `j` is an object that carries the event: its member `type` is the tag and
its member `updates` is an array whose items carry the updates, in order.  Other members are
allowed. -/
def Encodes (e : WireEvent) (j : Json) : Prop :=
  j.find "type" = some (Json.string e.type) ∧
  ∃ items, j.find "updates" = some (Json.array items) ∧
    List.Forall₂ WireUpdate.Encodes e.updates items

/-- The object with exactly the members of the event. -/
def toJson (e : WireEvent) : Json :=
  Json.object
    [("type", Json.string e.type), ("updates", Json.array (e.updates.map WireUpdate.toJson))]

end WireEvent

/-- The JSON value `j` is a message of the level-2 data channel that carries the events, in
order.  Other members are allowed. -/
def EncodesMessage (events : List WireEvent) (j : Json) : Prop :=
  j.find "channel" = some (Json.string "l2_data") ∧
  ∃ items, j.find "events" = some (Json.array items) ∧
    List.Forall₂ WireEvent.Encodes events items

/-- The message of the level-2 data channel with exactly the given events. -/
def wireMessage (events : List WireEvent) : Json :=
  Json.object
    [("channel", Json.string "l2_data"), ("events", Json.array (events.map WireEvent.toJson))]

/-- The calls a message stands for: those of the update items of its snapshot and update
events, in document order. -/
def wireCalls (stod : String → Option ℚ) (now : Nat) : List WireEvent → List UpdateCall
  | [] => []
  | e :: rest =>
    (if e.isData then e.updates.map (WireUpdate.call stod now) else [])
      ++ wireCalls stod now rest

/-- Two event lists that differ at most in which of the two data tags their events carry. -/
def SameUpToTag (events1 events2 : List WireEvent) : Prop :=
  List.Forall₂
    (fun e1 e2 => e2.updates = e1.updates ∧
      (e2.type = e1.type ∨ (e1.isData = true ∧ e2.isData = true)))
    events1 events2

/-- The values of `std::stod` on the numerals of the sample messages; every other text is
taken as one it rejects. -/
def sampleStod (text : String) : Option ℚ :=
  if text = "100.00" then some 100
  else if text = "100.50" then some 100.5
  else if text = "2.0" then some 2
  else if text = "1.5" then some 1.5
  else none

/-- A snapshot with a bid at 100.00 for 2.0, then an update with an ask at 100.50 for 1.5. -/
def sampleEvents : List WireEvent :=
  [WireEvent.mk "snapshot" [WireUpdate.mk "bid" "100.00" "2.0" none],
   WireEvent.mk "update" [WireUpdate.mk "offer" "100.50" "1.5" (some "t2")]]

/-- The sample events with the two tags exchanged. -/
def sampleEventsRetagged : List WireEvent :=
  [WireEvent.mk "update" [WireUpdate.mk "bid" "100.00" "2.0" none],
   WireEvent.mk "snapshot" [WireUpdate.mk "offer" "100.50" "1.5" (some "t2")]]

/-- An update item whose `price_level` is a number instead of a text. -/
def malformedItem : Json :=
  Json.object
    [("side", Json.string "bid"), ("price_level", Json.number 99),
     ("new_quantity", Json.string "1.5")]

/-- A bid at 100.00 for 2.0, without `event_time`. -/
def sampleBid : WireUpdate := WireUpdate.mk "bid" "100.00" "2.0" none

/-- The update list of the half-malformed sample message: a bid at 100.00 for 2.0, then the
malformed item. -/
def halfMalformedUpdates : Json :=
  Json.array [sampleBid.toJson, malformedItem]

/-- The update event of the half-malformed sample message. -/
def halfMalformedEvent : Json :=
  Json.object [("type", Json.string "update"), ("updates", halfMalformedUpdates)]

/-- A message of the level-2 data channel with the half-malformed event only. -/
def halfMalformedMessage : Json :=
  Json.object
    [("channel", Json.string "l2_data"), ("events", Json.array [halfMalformedEvent])]

/-- Whether the handler treats the event as one with an update list: it has a member `type`
that is the string "update" or the string "snapshot". -/
def Json.isDataEvent (event : Json) : Bool :=
  event.contains "type" &&
    ((event.member "type").isString "update" || (event.member "type").isString "snapshot")

/-! ## Queries that run while the writer runs

Every method that takes `book_mutex` holds it from its first statement to its return, so it
runs on the book as some sequence of completed `updateLevel` calls left it.  `getSpread` and
`getSpreadBps` take no lock themselves: they call `getBestBid()`, which locks, reads and
unlocks, and then `getBestAsk()`, which does the same, and the writer may complete calls
between the two. -/

namespace CoinbaseOrderBook

/-- The method `getSpread` run while a writer performs the calls `cs` on the book `b`:
`getBestBid()` reads the book after the first `i` calls and `getBestAsk()` the book after the
first `j` calls, where `i ≤ j`. -/
def getSpreadDuring (b : CoinbaseOrderBook) (cs : List UpdateCall) (i j : Nat) : ℚ :=
  let bid := (b.replay (cs.take i)).getBestBid
  let ask := (b.replay (cs.take j)).getBestAsk
  if 0 < bid ∧ 0 < ask then ask - bid else 0

/-- The method `getSpreadBps` run while a writer performs the calls `cs` on the book `b`, read
as `getSpreadDuring`. -/
def getSpreadBpsDuring (b : CoinbaseOrderBook) (cs : List UpdateCall) (i j : Nat) : ℚ :=
  let bid := (b.replay (cs.take i)).getBestBid
  let ask := (b.replay (cs.take j)).getBestAsk
  if 0 < bid ∧ 0 < ask then ((ask - bid) / ((ask + bid) / 2)) * 10000 else 0

/-- Writer calls for the interleaving example: a bid at 100, an ask at 110, a bid at 105, an
ask at 103. -/
def tornCalls : List UpdateCall :=
  [UpdateCall.mk "bid" 100 1 "" 1, UpdateCall.mk "offer" 110 1 "" 2,
   UpdateCall.mk "bid" 105 1 "" 3, UpdateCall.mk "offer" 103 1 "" 4]

end CoinbaseOrderBook

/-! ## The ordered map -/

namespace LevelMap

theorem ordered_nil : Ordered [] := List.Pairwise.nil

theorem Ordered.tail {e : ℚ × OrderBookLevel} {m : LevelMap} (h : Ordered (e :: m)) :
    Ordered m := (List.pairwise_cons.1 h).2

theorem Ordered.head_lt {e : ℚ × OrderBookLevel} {m : LevelMap} (h : Ordered (e :: m)) :
    ∀ x ∈ m, e.1 < x.1 := (List.pairwise_cons.1 h).1

theorem find?_eq_none_of_lt {m : LevelMap} {key : ℚ} (h : ∀ x ∈ m, key < x.1) :
    find? m key = none := by
  induction m with
  | nil => rfl
  | cons e rest ih =>
    obtain ⟨k, v⟩ := e
    have hk : key < k := h (k, v) (List.mem_cons_self _ _)
    have hne : ¬ k = key := fun heq => absurd hk (by rw [heq]; exact lt_irrefl _)
    simp only [find?, hne, if_false]
    exact ih (fun x hx => h x (List.mem_cons_of_mem _ hx))

theorem mem_of_find? {m : LevelMap} {key : ℚ} {v : OrderBookLevel}
    (h : find? m key = some v) : (key, v) ∈ m := by
  induction m with
  | nil => simp [find?] at h
  | cons e rest ih =>
    obtain ⟨k, w⟩ := e
    by_cases hk : k = key
    · simp only [find?, hk, if_true, Option.some.injEq] at h
      subst hk; subst h
      exact List.mem_cons_self _ _
    · simp only [find?, hk, if_false] at h
      exact List.mem_cons_of_mem _ (ih h)

theorem find?_of_mem {m : LevelMap} (hm : Ordered m) {key : ℚ} {v : OrderBookLevel}
    (h : (key, v) ∈ m) : find? m key = some v := by
  induction m with
  | nil => simp at h
  | cons e rest ih =>
    obtain ⟨k, w⟩ := e
    rcases List.mem_cons.1 h with heq | hin
    · simp only [Prod.mk.injEq] at heq
      simp [find?, heq.1, heq.2]
    · have hlt : k < key := hm.head_lt (key, v) hin
      have hne : ¬ k = key := ne_of_lt hlt
      simp only [find?, hne, if_false]
      exact ih hm.tail hin

theorem find?_erase_ne (m : LevelMap) {key k1 : ℚ} (h : k1 ≠ key) :
    find? (erase m key) k1 = find? m k1 := by
  induction m with
  | nil => rfl
  | cons e rest ih =>
    obtain ⟨k, v⟩ := e
    unfold erase
    split_ifs with h1 h2
    · rfl
    · simp only [find?, ih]
    · have hk : k = key := le_antisymm (not_lt.1 h1) (not_lt.1 h2)
      have hne : ¬ k = k1 := fun heq => h (heq ▸ hk)
      simp only [find?, hne, if_false]

theorem find?_erase_self {m : LevelMap} (hm : Ordered m) (key : ℚ) :
    find? (erase m key) key = none := by
  induction m with
  | nil => rfl
  | cons e rest ih =>
    obtain ⟨k, v⟩ := e
    unfold erase
    split_ifs with h1 h2
    · apply find?_eq_none_of_lt
      intro x hx
      rcases List.mem_cons.1 hx with heq | hin
      · rw [heq]; exact h1
      · exact lt_trans h1 (hm.head_lt x hin)
    · have hne : ¬ k = key := ne_of_lt h2
      simp only [find?, hne, if_false]
      exact ih hm.tail
    · have hk : k = key := le_antisymm (not_lt.1 h1) (not_lt.1 h2)
      apply find?_eq_none_of_lt
      intro x hx
      rw [← hk]
      exact hm.head_lt x hx

theorem find?_assign_self (m : LevelMap) (key : ℚ) (value : OrderBookLevel) :
    find? (assign m key value) key = some value := by
  induction m with
  | nil => simp [assign, find?]
  | cons e rest ih =>
    obtain ⟨k, v⟩ := e
    unfold assign
    split_ifs with h1 h2
    · simp [find?]
    · have hne : ¬ k = key := ne_of_lt h2
      simp only [find?, hne, if_false]
      exact ih
    · have hk : k = key := le_antisymm (not_lt.1 h1) (not_lt.1 h2)
      simp [find?, hk]

theorem find?_assign_ne (m : LevelMap) {key k1 : ℚ} (value : OrderBookLevel) (h : k1 ≠ key) :
    find? (assign m key value) k1 = find? m k1 := by
  induction m with
  | nil =>
    have hne : ¬ key = k1 := fun heq => h heq.symm
    simp [assign, find?, hne]
  | cons e rest ih =>
    obtain ⟨k, v⟩ := e
    unfold assign
    split_ifs with h1 h2
    · have hne : ¬ key = k1 := fun heq => h heq.symm
      simp only [find?, hne, if_false]
    · simp only [find?, ih]
    · have hk : k = key := le_antisymm (not_lt.1 h1) (not_lt.1 h2)
      have hne : ¬ k = k1 := fun heq => h (heq ▸ hk)
      simp only [find?, hne, if_false]

theorem erase_sublist (m : LevelMap) (key : ℚ) : List.Sublist (erase m key) m := by
  induction m with
  | nil => exact List.Sublist.refl _
  | cons e rest ih =>
    obtain ⟨k, v⟩ := e
    unfold erase
    split_ifs with h1 h2
    · exact List.Sublist.refl _
    · exact List.Sublist.cons₂ _ ih
    · exact List.sublist_cons_self _ _

theorem Ordered.erase {m : LevelMap} (hm : Ordered m) (key : ℚ) : Ordered (erase m key) :=
  List.Pairwise.sublist (erase_sublist m key) hm

theorem mem_assign {m : LevelMap} {key : ℚ} {value : OrderBookLevel}
    {x : ℚ × OrderBookLevel} (hx : x ∈ assign m key value) : x = (key, value) ∨ x ∈ m := by
  induction m with
  | nil =>
    simp only [assign, List.mem_singleton] at hx
    exact Or.inl hx
  | cons e rest ih =>
    obtain ⟨k, v⟩ := e
    unfold assign at hx
    split_ifs at hx with h1 h2
    · rcases List.mem_cons.1 hx with heq | hin
      · exact Or.inl heq
      · exact Or.inr hin
    · rcases List.mem_cons.1 hx with heq | hin
      · exact Or.inr (by rw [heq]; exact List.mem_cons_self _ _)
      · rcases ih hin with h3 | h3
        · exact Or.inl h3
        · exact Or.inr (List.mem_cons_of_mem _ h3)
    · have hk : k = key := le_antisymm (not_lt.1 h1) (not_lt.1 h2)
      rcases List.mem_cons.1 hx with heq | hin
      · exact Or.inl (by rw [heq, hk])
      · exact Or.inr (List.mem_cons_of_mem _ hin)

theorem Ordered.assign {m : LevelMap} (hm : Ordered m) (key : ℚ) (value : OrderBookLevel) :
    Ordered (assign m key value) := by
  induction m with
  | nil => exact List.pairwise_singleton _ _
  | cons e rest ih =>
    obtain ⟨k, v⟩ := e
    unfold LevelMap.assign
    split_ifs with h1 h2
    · refine List.Pairwise.cons ?_ hm
      intro x hx
      rcases List.mem_cons.1 hx with heq | hin
      · rw [heq]; exact h1
      · exact lt_trans h1 (hm.head_lt x hin)
    · refine List.Pairwise.cons ?_ (ih hm.tail)
      intro x hx
      rcases mem_assign hx with h3 | h3
      · rw [h3]; exact h2
      · exact hm.head_lt x h3
    · exact List.Pairwise.cons (fun x hx => hm.head_lt x hx) hm.tail

theorem erase_eq_self {m : LevelMap} (hm : Ordered m) {key : ℚ} (h : find? m key = none) :
    erase m key = m := by
  induction m with
  | nil => rfl
  | cons e rest ih =>
    obtain ⟨k, v⟩ := e
    unfold LevelMap.erase
    by_cases hk : k = key
    · simp [find?, hk] at h
    · simp only [find?, hk, if_false] at h
      split_ifs with h1 h2
      · rfl
      · rw [ih hm.tail h]
      · exact absurd (le_antisymm (not_lt.1 h1) (not_lt.1 h2)) hk

/-- Two ordered maps that store the same value under every key are the same map. -/
theorem ext_find? {m1 m2 : LevelMap} (h1 : Ordered m1) (h2 : Ordered m2)
    (h : ∀ key, find? m1 key = find? m2 key) : m1 = m2 := by
  induction m1 generalizing m2 with
  | nil =>
    cases m2 with
    | nil => rfl
    | cons e rest =>
      have := h e.1
      simp [find?] at this
  | cons e1 r1 ih =>
    cases m2 with
    | nil =>
      have := h e1.1
      simp [find?] at this
    | cons e2 r2 =>
      obtain ⟨k1, v1⟩ := e1
      obtain ⟨k2, v2⟩ := e2
      have hk : k1 = k2 := by
        rcases lt_trichotomy k1 k2 with hlt | heq | hgt
        · have a := h k1
          have hn : find? ((k2, v2) :: r2) k1 = none :=
            find?_eq_none_of_lt (fun x hx => by
              rcases List.mem_cons.1 hx with heq | hin
              · rw [heq]; exact hlt
              · exact lt_trans hlt (h2.head_lt x hin))
          rw [hn] at a
          simp [find?] at a
        · exact heq
        · have a := h k2
          have hn : find? ((k1, v1) :: r1) k2 = none :=
            find?_eq_none_of_lt (fun x hx => by
              rcases List.mem_cons.1 hx with heq | hin
              · rw [heq]; exact hgt
              · exact lt_trans hgt (h1.head_lt x hin))
          rw [hn] at a
          simp [find?] at a
      subst hk
      have hv : v1 = v2 := by
        have a := h k1
        simpa [find?] using a
      subst hv
      have hr : r1 = r2 := by
        apply ih h1.tail h2.tail
        intro key
        by_cases hkey : k1 = key
        · subst hkey
          rw [find?_eq_none_of_lt (h1.head_lt), find?_eq_none_of_lt (h2.head_lt)]
        · have a := h key
          simpa [find?, hkey] using a
      rw [hr]

theorem erase_eq_filter {m : LevelMap} (hm : Ordered m) (key : ℚ) :
    erase m key = List.filter (fun e => decide (e.1 ≠ key)) m := by
  induction m with
  | nil => rfl
  | cons e rest ih =>
    obtain ⟨k, v⟩ := e
    have hrest : ∀ x ∈ rest, k < x.1 := hm.head_lt
    unfold LevelMap.erase
    split_ifs with h1 h2
    · symm
      apply List.filter_eq_self.2
      intro x hx
      have hlt : key < x.1 := by
        rcases List.mem_cons.1 hx with heq | hin
        · rw [heq]; exact h1
        · exact lt_trans h1 (hrest x hin)
      simpa using ne_of_gt hlt
    · have hne : k ≠ key := ne_of_lt h2
      rw [ih hm.tail]
      simp [List.filter_cons, hne]
    · have hk : k = key := le_antisymm (not_lt.1 h1) (not_lt.1 h2)
      have hf : List.filter (fun e => decide (e.1 ≠ key)) rest = rest := by
        apply List.filter_eq_self.2
        intro x hx
        have hlt : key < x.1 := hk ▸ hrest x hx
        simpa using ne_of_gt hlt
      rw [List.filter_cons_of_neg (by simp [hk]), hf]

theorem assign_eq_filter {m : LevelMap} (hm : Ordered m) (key : ℚ) (value : OrderBookLevel) :
    assign m key value =
      List.filter (fun e => decide (e.1 < key)) m ++
        (key, value) :: List.filter (fun e => decide (key < e.1)) m := by
  induction m with
  | nil => rfl
  | cons e rest ih =>
    obtain ⟨k, v⟩ := e
    have hrest : ∀ x ∈ rest, k < x.1 := hm.head_lt
    unfold LevelMap.assign
    split_ifs with h1 h2
    · have hall : ∀ x ∈ (k, v) :: rest, key < x.1 := by
        intro x hx
        rcases List.mem_cons.1 hx with heq | hin
        · rw [heq]; exact h1
        · exact lt_trans h1 (hrest x hin)
      have hf1 : List.filter (fun e => decide (e.1 < key)) ((k, v) :: rest) = [] := by
        apply List.filter_eq_nil_iff.2
        intro x hx
        simpa using le_of_lt (hall x hx)
      have hf2 : List.filter (fun e => decide (key < e.1)) ((k, v) :: rest) = (k, v) :: rest := by
        apply List.filter_eq_self.2
        intro x hx
        simpa using hall x hx
      rw [hf1, hf2]
      rfl
    · rw [ih hm.tail, List.filter_cons_of_pos (by simpa using h2),
        List.filter_cons_of_neg (by simpa using h1)]
      rfl
    · have hk : k = key := le_antisymm (not_lt.1 h1) (not_lt.1 h2)
      have hf1 : List.filter (fun e => decide (e.1 < key)) rest = [] := by
        apply List.filter_eq_nil_iff.2
        intro x hx
        simpa using le_of_lt (hk ▸ hrest x hx)
      have hf2 : List.filter (fun e => decide (key < e.1)) rest = rest := by
        apply List.filter_eq_self.2
        intro x hx
        simpa using (hk ▸ hrest x hx)
      rw [List.filter_cons_of_neg (by simpa using h2), List.filter_cons_of_neg (by simpa using h1),
        hf1, hf2, hk]
      rfl

end LevelMap

/-! ## One call of `updateLevel` -/

namespace CoinbaseOrderBook

theorem wellFormed_new (sym : String) (now : Nat) : (new sym now).WellFormed :=
  ⟨LevelMap.ordered_nil, LevelMap.ordered_nil⟩

theorem selected_updateLevel (b : CoinbaseOrderBook) (side : String) (p q : ℚ) (ts : String)
    (now : Nat) :
    (b.updateLevel side p q ts now).selected side =
      if q < 0.05 then (b.selected side).erase p
      else (b.selected side).assign p (OrderBookLevel.mk p q ts) := by
  by_cases hs : side = "bid" <;> simp [updateLevel, selected, hs]

theorem opposite_updateLevel (b : CoinbaseOrderBook) (side : String) (p q : ℚ) (ts : String)
    (now : Nat) :
    (b.updateLevel side p q ts now).opposite side = b.opposite side := by
  by_cases hs : side = "bid" <;> simp [updateLevel, opposite, hs]

theorem WellFormed.selected {b : CoinbaseOrderBook} (h : b.WellFormed) (side : String) :
    (b.selected side).Ordered := by
  unfold CoinbaseOrderBook.selected
  split_ifs
  · exact h.1
  · exact h.2

theorem WellFormed.updateLevel {b : CoinbaseOrderBook} (h : b.WellFormed) (side : String)
    (p q : ℚ) (ts : String) (now : Nat) : (b.updateLevel side p q ts now).WellFormed := by
  by_cases hs : side = "bid" <;> by_cases hq : q < 0.05 <;>
    simp only [CoinbaseOrderBook.updateLevel, WellFormed, hs, hq, if_true, if_false]
  · exact ⟨h.1.erase p, h.2⟩
  · exact ⟨h.1.assign p _, h.2⟩
  · exact ⟨h.1, h.2.erase p⟩
  · exact ⟨h.1, h.2.assign p _⟩

end CoinbaseOrderBook

/-! ## Entries after a call, and states reached by sequences of calls -/

namespace LevelMap

theorem mem_of_mem_erase {m : LevelMap} {key : ℚ} {x : ℚ × OrderBookLevel}
    (hx : x ∈ erase m key) : x ∈ m :=
  (erase_sublist m key).subset hx

end LevelMap

namespace CoinbaseOrderBook

theorem mem_bids_updateLevel {b : CoinbaseOrderBook} {side : String} {p q : ℚ} {ts : String}
    {now : Nat} {e : ℚ × OrderBookLevel} (he : e ∈ (b.updateLevel side p q ts now).bids) :
    e ∈ b.bids ∨ (e = (p, OrderBookLevel.mk p q ts) ∧ ¬ q < 0.05) := by
  by_cases hs : side = "bid" <;> by_cases hq : q < 0.05 <;>
    simp only [updateLevel, hs, hq, if_true, if_false] at he
  · exact Or.inl (LevelMap.mem_of_mem_erase he)
  · rcases LevelMap.mem_assign he with h | h
    · exact Or.inr ⟨h, hq⟩
    · exact Or.inl h
  · exact Or.inl he
  · exact Or.inl he

theorem mem_asks_updateLevel {b : CoinbaseOrderBook} {side : String} {p q : ℚ} {ts : String}
    {now : Nat} {e : ℚ × OrderBookLevel} (he : e ∈ (b.updateLevel side p q ts now).asks) :
    e ∈ b.asks ∨ (e = (p, OrderBookLevel.mk p q ts) ∧ ¬ q < 0.05) := by
  by_cases hs : side = "bid" <;> by_cases hq : q < 0.05 <;>
    simp only [updateLevel, hs, hq, if_true, if_false] at he
  · exact Or.inl he
  · exact Or.inl he
  · exact Or.inl (LevelMap.mem_of_mem_erase he)
  · rcases LevelMap.mem_assign he with h | h
    · exact Or.inr ⟨h, hq⟩
    · exact Or.inl h

/-- A property of books that holds initially and is kept by every step holds after any
sequence of steps. -/
theorem foldl_invariant (step : CoinbaseOrderBook → UpdateCall → CoinbaseOrderBook)
    (Inv : CoinbaseOrderBook → Prop) (hstep : ∀ b c, Inv b → Inv (step b c))
    (cs : List UpdateCall) (b : CoinbaseOrderBook) (h0 : Inv b) : Inv (cs.foldl step b) := by
  induction cs generalizing b with
  | nil => exact h0
  | cons c rest ih => exact ih (step b c) (hstep b c h0)

theorem WellFormed.replay {b : CoinbaseOrderBook} (h : b.WellFormed) (cs : List UpdateCall) :
    (b.replay cs).WellFormed :=
  foldl_invariant applyCall WellFormed (fun _ _ hb => hb.updateLevel _ _ _ _ _) cs b h

/-- Every entry of a book reached by a sequence of steps is an entry the start book had or
the entry written by one of the steps, when each step only adds the entry of its call and
only for a quantity it keeps. -/
theorem entries_foldl (step : CoinbaseOrderBook → UpdateCall → CoinbaseOrderBook)
    (keep : ℚ → Prop)
    (hbids : ∀ b c e, e ∈ (step b c).bids → e ∈ b.bids ∨
      (e = (c.price, OrderBookLevel.mk c.price c.quantity c.timestamp) ∧ keep c.quantity))
    (hasks : ∀ b c e, e ∈ (step b c).asks → e ∈ b.asks ∨
      (e = (c.price, OrderBookLevel.mk c.price c.quantity c.timestamp) ∧ keep c.quantity))
    (cs : List UpdateCall) (b : CoinbaseOrderBook) :
    ∀ e, e ∈ (cs.foldl step b).bids ∨ e ∈ (cs.foldl step b).asks →
      (e ∈ b.bids ∨ e ∈ b.asks) ∨
      ∃ c ∈ cs, e = (c.price, OrderBookLevel.mk c.price c.quantity c.timestamp) ∧
        keep c.quantity := by
  induction cs generalizing b with
  | nil =>
    intro e he
    exact Or.inl he
  | cons c rest ih =>
    intro e he
    rcases ih (step b c) e he with h1 | ⟨d, hd, hd2⟩
    · rcases h1 with h1 | h1
      · rcases hbids b c e h1 with h2 | h2
        · exact Or.inl (Or.inl h2)
        · exact Or.inr ⟨c, List.mem_cons_self _ _, h2⟩
      · rcases hasks b c e h1 with h2 | h2
        · exact Or.inl (Or.inr h2)
        · exact Or.inr ⟨c, List.mem_cons_self _ _, h2⟩
    · exact Or.inr ⟨d, List.mem_cons_of_mem _ hd, hd2⟩

/-- Every entry of a book reached from an empty book is the entry written by one of the
calls, with a quantity that is not below 0.05. -/
theorem entries_replay (sym : String) (t0 : Nat) (cs : List UpdateCall) :
    ∀ e, e ∈ ((new sym t0).replay cs).bids ∨ e ∈ ((new sym t0).replay cs).asks →
      ∃ c ∈ cs, e = (c.price, OrderBookLevel.mk c.price c.quantity c.timestamp) ∧
        ¬ c.quantity < 0.05 := by
  intro e he
  rcases entries_foldl applyCall (fun q => ¬ q < 0.05)
      (fun _ _ _ h => mem_bids_updateLevel h) (fun _ _ _ h => mem_asks_updateLevel h)
      cs (new sym t0) e he with h | h
  · simp [new] at h
  · exact h

/-- What the loop of `getBids` and `getAsks` returns: the levels already collected, followed
by the values of the first `depth - i` entries still to visit. -/
theorem collect_eq (depth : Int) (l : List (ℚ × OrderBookLevel)) (i : Int)
    (result : List OrderBookLevel) :
    collect depth i l result
      = result ++ (l.take (depth - i).toNat).map Prod.snd := by
  induction l generalizing i result with
  | nil => simp [collect]
  | cons e rest ih =>
    unfold collect
    split_ifs with h
    · rw [ih]
      have hn : (depth - i).toNat = (depth - (i + 1)).toNat + 1 := by omega
      rw [hn, List.take_succ_cons, List.map_cons, List.append_assoc]
      rfl
    · have hn : (depth - i).toNat = 0 := by omega
      rw [hn]
      simp

theorem getBids_eq (b : CoinbaseOrderBook) (depth : Int) :
    b.getBids depth = (b.bids.reverse.take depth.toNat).map Prod.snd := by
  simp [getBids, collect_eq]

theorem getAsks_eq (b : CoinbaseOrderBook) (depth : Int) :
    b.getAsks depth = (b.asks.take depth.toNat).map Prod.snd := by
  simp [getAsks, collect_eq]

end CoinbaseOrderBook

/-! ## The variant of src/main.cpp -/

namespace MainCpp

theorem wellFormed_updateLevel_main {b : CoinbaseOrderBook} (h : b.WellFormed) (side : String)
    (p q : ℚ) (ts : String) (now : Nat) : (updateLevel b side p q ts now).WellFormed := by
  unfold updateLevel
  split_ifs
  · exact ⟨h.1.erase p, h.2⟩
  · exact ⟨h.1.assign p _, h.2⟩
  · exact ⟨h.1, h.2.erase p⟩
  · exact ⟨h.1, h.2.assign p _⟩
  · exact h

theorem wellFormed_replay_main {b : CoinbaseOrderBook} (h : b.WellFormed)
    (cs : List UpdateCall) : (replay b cs).WellFormed :=
  CoinbaseOrderBook.foldl_invariant applyCall CoinbaseOrderBook.WellFormed
    (fun _ _ hb => wellFormed_updateLevel_main hb _ _ _ _ _) cs b h

theorem mem_bids_updateLevel_main {b : CoinbaseOrderBook} {side : String} {p q : ℚ}
    {ts : String} {now : Nat} {e : ℚ × OrderBookLevel}
    (he : e ∈ (updateLevel b side p q ts now).bids) :
    e ∈ b.bids ∨ (e = (p, OrderBookLevel.mk p q ts) ∧ q ≠ 0) := by
  unfold updateLevel at he
  split_ifs at he with h1 h2 h3 h4
  · exact Or.inl (LevelMap.mem_of_mem_erase he)
  · rcases LevelMap.mem_assign he with h | h
    · exact Or.inr ⟨h, h2⟩
    · exact Or.inl h
  · exact Or.inl he
  · exact Or.inl he
  · exact Or.inl he

theorem mem_asks_updateLevel_main {b : CoinbaseOrderBook} {side : String} {p q : ℚ}
    {ts : String} {now : Nat} {e : ℚ × OrderBookLevel}
    (he : e ∈ (updateLevel b side p q ts now).asks) :
    e ∈ b.asks ∨ (e = (p, OrderBookLevel.mk p q ts) ∧ q ≠ 0) := by
  unfold updateLevel at he
  split_ifs at he with h1 h2 h3 h4
  · exact Or.inl he
  · exact Or.inl he
  · exact Or.inl (LevelMap.mem_of_mem_erase he)
  · rcases LevelMap.mem_assign he with h | h
    · exact Or.inr ⟨h, h4⟩
    · exact Or.inl h
  · exact Or.inl he

/-- Every entry of a book reached from an empty book with the method of src/main.cpp is the
entry written by one of the calls, with a quantity other than zero. -/
theorem entries_replay_main (sym : String) (t0 : Nat) (cs : List UpdateCall) :
    ∀ e, e ∈ (replay (CoinbaseOrderBook.new sym t0) cs).bids ∨
        e ∈ (replay (CoinbaseOrderBook.new sym t0) cs).asks →
      ∃ c ∈ cs, e = (c.price, OrderBookLevel.mk c.price c.quantity c.timestamp) ∧
        c.quantity ≠ 0 := by
  intro e he
  rcases CoinbaseOrderBook.entries_foldl applyCall (fun q => q ≠ 0)
      (fun _ _ _ h => mem_bids_updateLevel_main h) (fun _ _ _ h => mem_asks_updateLevel_main h)
      cs (CoinbaseOrderBook.new sym t0) e he with h | h
  · simp [CoinbaseOrderBook.new] at h
  · exact h

end MainCpp

/-! ## Properties of `updateLevel` -/

namespace CoinbaseOrderBook

/-- C2: on a book whose two maps are ordered, as those of every `std::map` and of every book
reached from the constructor are (`WellFormed.replay`), `updateLevel(side, p, q, ts)` of
src/src/OrderBook.cpp keeps both maps ordered, leaves the side it does not select unchanged,
and leaves every key other than `p` of the selected side as it was.  When `q < 0.05` the
selected side afterwards has nothing at `p`, is the old collection without the entry at `p`,
and is the old collection itself if `p` was absent.  Otherwise the selected side afterwards
stores the level `(p, q, ts)` at `p`, and is the old entries below `p`, that level, and the
old entries above `p`. -/
theorem updateLevel_effect (b : CoinbaseOrderBook) (side : String) (p q : ℚ) (ts : String)
    (now : Nat) (hb : b.WellFormed) :
    (b.updateLevel side p q ts now).WellFormed ∧
    (b.updateLevel side p q ts now).opposite side = b.opposite side ∧
    (∀ k, k ≠ p →
      ((b.updateLevel side p q ts now).selected side).find? k = (b.selected side).find? k) ∧
    (q < 0.05 →
      ((b.updateLevel side p q ts now).selected side).find? p = none ∧
      (b.updateLevel side p q ts now).selected side =
        List.filter (fun e => decide (e.1 ≠ p)) (b.selected side) ∧
      ((b.selected side).find? p = none →
        (b.updateLevel side p q ts now).selected side = b.selected side)) ∧
    (¬ q < 0.05 →
      ((b.updateLevel side p q ts now).selected side).find? p
        = some (OrderBookLevel.mk p q ts) ∧
      (b.updateLevel side p q ts now).selected side =
        List.filter (fun e => decide (e.1 < p)) (b.selected side) ++
          (p, OrderBookLevel.mk p q ts) ::
            List.filter (fun e => decide (p < e.1)) (b.selected side)) := by
  have hsel := hb.selected side
  refine ⟨hb.updateLevel side p q ts now, opposite_updateLevel b side p q ts now, ?_, ?_, ?_⟩
  · intro k hk
    rw [selected_updateLevel]
    split_ifs
    · exact LevelMap.find?_erase_ne _ hk
    · exact LevelMap.find?_assign_ne _ _ hk
  · intro hq
    rw [selected_updateLevel, if_pos hq]
    exact ⟨LevelMap.find?_erase_self hsel p, LevelMap.erase_eq_filter hsel p,
      fun h => LevelMap.erase_eq_self hsel h⟩
  · intro hq
    rw [selected_updateLevel, if_neg hq]
    exact ⟨LevelMap.find?_assign_self _ p _, LevelMap.assign_eq_filter hsel p _⟩

theorem wellFormed_sampleBook : sampleBook.WellFormed := by
  constructor
  · simp [sampleBook, LevelMap.Ordered]
    norm_num
  · simp [sampleBook, LevelMap.Ordered]

/-- Instance of C2: replacing the bid level at 100 of the sample book. -/
theorem updateLevel_effect_witness :
    sampleBook.WellFormed ∧
    ((sampleBook.updateLevel "bid" 100 2 "t9" 4).WellFormed ∧
    (sampleBook.updateLevel "bid" 100 2 "t9" 4).opposite "bid" = sampleBook.opposite "bid" ∧
    (∀ k, k ≠ 100 →
      ((sampleBook.updateLevel "bid" 100 2 "t9" 4).selected "bid").find? k
        = (sampleBook.selected "bid").find? k) ∧
    ((2 : ℚ) < 0.05 →
      ((sampleBook.updateLevel "bid" 100 2 "t9" 4).selected "bid").find? 100 = none ∧
      (sampleBook.updateLevel "bid" 100 2 "t9" 4).selected "bid" =
        List.filter (fun e => decide (e.1 ≠ 100)) (sampleBook.selected "bid") ∧
      ((sampleBook.selected "bid").find? 100 = none →
        (sampleBook.updateLevel "bid" 100 2 "t9" 4).selected "bid"
          = sampleBook.selected "bid")) ∧
    (¬ (2 : ℚ) < 0.05 →
      ((sampleBook.updateLevel "bid" 100 2 "t9" 4).selected "bid").find? 100
        = some (OrderBookLevel.mk 100 2 "t9") ∧
      (sampleBook.updateLevel "bid" 100 2 "t9" 4).selected "bid" =
        List.filter (fun e => decide (e.1 < 100)) (sampleBook.selected "bid") ++
          (100, OrderBookLevel.mk 100 2 "t9") ::
            List.filter (fun e => decide (100 < e.1)) (sampleBook.selected "bid"))) :=
  ⟨wellFormed_sampleBook, updateLevel_effect sampleBook "bid" 100 2 "t9" 4 wellFormed_sampleBook⟩

end CoinbaseOrderBook

/-! ## Invariants of reachable books -/

namespace CoinbaseOrderBook

theorem key_eq_price_replay (sym : String) (t0 : Nat) (cs : List UpdateCall) :
    ∀ e, e ∈ ((new sym t0).replay cs).bids ∨ e ∈ ((new sym t0).replay cs).asks →
      e.1 = e.2.price := by
  intro e he
  obtain ⟨c, _, hc, _⟩ := entries_replay sym t0 cs e he
  rw [hc]

/-- C3: in every book reached from the empty book by a sequence of `updateLevel` calls, no
level of `bids` or `asks` has quantity 0 and none has a quantity below the removal threshold
0.05 of src/src/OrderBook.cpp; with the method of src/main.cpp, whose removal rule is
`quantity == 0.0`, no level of `bids` or `asks` has quantity 0. -/
theorem no_removed_quantity_retained (sym : String) (t0 : Nat) (cs : List UpdateCall) :
    (∀ e, e ∈ ((new sym t0).replay cs).bids ∨ e ∈ ((new sym t0).replay cs).asks →
      e.2.quantity ≠ 0 ∧ ¬ e.2.quantity < 0.05) ∧
    (∀ e, e ∈ (MainCpp.replay (new sym t0) cs).bids ∨
        e ∈ (MainCpp.replay (new sym t0) cs).asks →
      e.2.quantity ≠ 0) := by
  constructor
  · intro e he
    obtain ⟨c, _, hc, hq⟩ := entries_replay sym t0 cs e he
    rw [hc]
    refine ⟨?_, hq⟩
    intro h0
    apply hq
    show c.quantity < 0.05
    have h0 : c.quantity = 0 := h0
    rw [h0]
    norm_num
  · intro e he
    obtain ⟨c, _, hc, hq⟩ := MainCpp.entries_replay_main sym t0 cs e he
    rw [hc]
    exact hq

/-- C4: in every book reached from the empty book by a sequence of `updateLevel` calls
(of src/src/OrderBook.cpp, and likewise of src/main.cpp), every key of `bids` and of `asks`
equals the price field of the level stored under it; hence every level that `getBids` or
`getAsks` returns is stored in its map under its own price. -/
theorem key_equals_price (sym : String) (t0 : Nat) (cs : List UpdateCall) :
    (∀ e, e ∈ ((new sym t0).replay cs).bids ∨ e ∈ ((new sym t0).replay cs).asks →
      e.1 = e.2.price) ∧
    (∀ depth l, l ∈ ((new sym t0).replay cs).getBids depth →
      (l.price, l) ∈ ((new sym t0).replay cs).bids) ∧
    (∀ depth l, l ∈ ((new sym t0).replay cs).getAsks depth →
      (l.price, l) ∈ ((new sym t0).replay cs).asks) ∧
    (∀ e, e ∈ (MainCpp.replay (new sym t0) cs).bids ∨
        e ∈ (MainCpp.replay (new sym t0) cs).asks →
      e.1 = e.2.price) := by
  have h1 := key_eq_price_replay sym t0 cs
  refine ⟨h1, ?_, ?_, ?_⟩
  · intro depth l hl
    rw [getBids_eq] at hl
    obtain ⟨e, he, hel⟩ := List.mem_map.1 hl
    have hmem : e ∈ ((new sym t0).replay cs).bids :=
      List.mem_reverse.1 (List.mem_of_mem_take he)
    have hk := h1 e (Or.inl hmem)
    have : (l.price, l) = e := by
      rw [← hel, ← hk]
    rw [this]
    exact hmem
  · intro depth l hl
    rw [getAsks_eq] at hl
    obtain ⟨e, he, hel⟩ := List.mem_map.1 hl
    have hmem : e ∈ ((new sym t0).replay cs).asks := List.mem_of_mem_take he
    have hk := h1 e (Or.inr hmem)
    have : (l.price, l) = e := by
      rw [← hel, ← hk]
    rw [this]
    exact hmem
  · intro e he
    obtain ⟨c, _, hc, _⟩ := MainCpp.entries_replay_main sym t0 cs e he
    rw [hc]

end CoinbaseOrderBook

/-! ## Read queries -/

namespace LevelMap

theorem le_getLast_of_ordered {m : LevelMap} (hm : Ordered m) {e : ℚ × OrderBookLevel}
    (he : m.getLast? = some e) : e ∈ m ∧ ∀ x ∈ m, x.1 ≤ e.1 := by
  have hmem : e ∈ m := List.mem_of_getLast?_eq_some he
  refine ⟨hmem, ?_⟩
  have hrev : m.reverse.head? = some e := by rw [List.head?_reverse]; exact he
  cases hr : m.reverse with
  | nil => rw [hr] at hrev; simp at hrev
  | cons a r =>
    rw [hr] at hrev
    simp only [List.head?_cons, Option.some.injEq] at hrev
    subst hrev
    have hp : List.Pairwise (fun x y => y.1 < x.1) m.reverse := List.pairwise_reverse.2 hm
    rw [hr] at hp
    intro x hx
    have hx2 : x ∈ a :: r := by rw [← hr]; exact List.mem_reverse.2 hx
    rcases List.mem_cons.1 hx2 with heq | hin
    · rw [heq]
    · exact le_of_lt ((List.pairwise_cons.1 hp).1 x hin)

theorem head_le_of_ordered {m : LevelMap} (hm : Ordered m) {e : ℚ × OrderBookLevel}
    (he : m.head? = some e) : e ∈ m ∧ ∀ x ∈ m, e.1 ≤ x.1 := by
  cases m with
  | nil => simp at he
  | cons a r =>
    simp only [List.head?_cons, Option.some.injEq] at he
    subst he
    refine ⟨List.mem_cons_self _ _, ?_⟩
    intro x hx
    rcases List.mem_cons.1 hx with heq | hin
    · rw [heq]
    · exact le_of_lt (hm.head_lt x hin)

end LevelMap

namespace CoinbaseOrderBook

/-- C5: on a book whose maps are ordered, as those of every `std::map` and of every book
reached from the constructor are, `getBestBid` returns 0 when `bids` is empty, and
otherwise returns a key that is present in `bids` and is at least every key of `bids`.  The
query is a function of the book and returns only the price, so the book is not modified. -/
theorem getBestBid_spec (b : CoinbaseOrderBook) (hb : b.WellFormed) :
    (b.bids = [] → b.getBestBid = 0) ∧
    (b.bids ≠ [] →
      (∃ v, (b.getBestBid, v) ∈ b.bids) ∧ ∀ e ∈ b.bids, e.1 ≤ b.getBestBid) := by
  constructor
  · intro h
    simp [getBestBid, h]
  · intro h
    cases hl : b.bids.getLast? with
    | none => exact absurd (List.getLast?_eq_none_iff.1 hl) h
    | some e =>
      have := LevelMap.le_getLast_of_ordered hb.1 hl
      simp only [getBestBid, hl]
      exact ⟨⟨e.2, this.1⟩, this.2⟩

/-- Instance of C5 on the sample book, whose best bid is 100. -/
theorem getBestBid_spec_witness :
    sampleBook.WellFormed ∧
    ((sampleBook.bids = [] → sampleBook.getBestBid = 0) ∧
    (sampleBook.bids ≠ [] →
      (∃ v, (sampleBook.getBestBid, v) ∈ sampleBook.bids) ∧
        ∀ e ∈ sampleBook.bids, e.1 ≤ sampleBook.getBestBid)) :=
  ⟨wellFormed_sampleBook, getBestBid_spec sampleBook wellFormed_sampleBook⟩

/-- C6: on a book whose maps are ordered, as those of every `std::map` and of every book
reached from the constructor are, `getBestAsk` returns 0 when `asks` is empty, and
otherwise returns a key that is present in `asks` and is at most every key of `asks`.  The
query is a function of the book and returns only the price, so the book is not modified. -/
theorem getBestAsk_spec (b : CoinbaseOrderBook) (hb : b.WellFormed) :
    (b.asks = [] → b.getBestAsk = 0) ∧
    (b.asks ≠ [] →
      (∃ v, (b.getBestAsk, v) ∈ b.asks) ∧ ∀ e ∈ b.asks, b.getBestAsk ≤ e.1) := by
  constructor
  · intro h
    simp [getBestAsk, h]
  · intro h
    cases hl : b.asks.head? with
    | none => exact absurd (List.head?_eq_none_iff.1 hl) h
    | some e =>
      have := LevelMap.head_le_of_ordered hb.2 hl
      simp only [getBestAsk, hl]
      exact ⟨⟨e.2, this.1⟩, this.2⟩

/-- Instance of C6 on the sample book, whose best ask is 101. -/
theorem getBestAsk_spec_witness :
    sampleBook.WellFormed ∧
    ((sampleBook.asks = [] → sampleBook.getBestAsk = 0) ∧
    (sampleBook.asks ≠ [] →
      (∃ v, (sampleBook.getBestAsk, v) ∈ sampleBook.asks) ∧
        ∀ e ∈ sampleBook.asks, sampleBook.getBestAsk ≤ e.1)) :=
  ⟨wellFormed_sampleBook, getBestAsk_spec sampleBook wellFormed_sampleBook⟩

/-- In a reachable book the values of `bids`, in map order, ascend strictly by price. -/
theorem bids_prices_ascending (sym : String) (t0 : Nat) (cs : List UpdateCall) :
    List.Pairwise (fun x y : OrderBookLevel => x.price < y.price)
      (((new sym t0).replay cs).bids.map Prod.snd) := by
  have hwf := (wellFormed_new sym t0).replay cs
  rw [List.pairwise_map]
  refine List.Pairwise.imp_of_mem ?_ hwf.1
  intro x y hx hy hxy
  rw [← key_eq_price_replay sym t0 cs x (Or.inl hx),
    ← key_eq_price_replay sym t0 cs y (Or.inl hy)]
  exact hxy

/-- In a reachable book the values of `asks`, in map order, ascend strictly by price. -/
theorem asks_prices_ascending (sym : String) (t0 : Nat) (cs : List UpdateCall) :
    List.Pairwise (fun x y : OrderBookLevel => x.price < y.price)
      (((new sym t0).replay cs).asks.map Prod.snd) := by
  have hwf := (wellFormed_new sym t0).replay cs
  rw [List.pairwise_map]
  refine List.Pairwise.imp_of_mem ?_ hwf.2
  intro x y hx hy hxy
  rw [← key_eq_price_replay sym t0 cs x (Or.inr hx),
    ← key_eq_price_replay sym t0 cs y (Or.inr hy)]
  exact hxy

/-- C7: for every book reached from the empty book by `updateLevel` calls and every
`n ≥ 0`, `getBids(n)` returns exactly `min(n, getBidLevels())` levels; the result is the
prefix of length `n` of the list of all bid levels taken from the highest key down, a list
that descends strictly by price, so the result descends strictly by price too; and the
result has fewer than `n` levels exactly when the bid side holds fewer than `n` levels.
The query is a total function: it returns a list for every book and depth. -/
theorem getBids_spec (sym : String) (t0 : Nat) (cs : List UpdateCall) (n : Int)
    (hn : 0 ≤ n) :
    ((((new sym t0).replay cs).getBids n).length : Int)
      = min n (((new sym t0).replay cs).getBidLevels : Int) ∧
    List.Pairwise (fun x y : OrderBookLevel => y.price < x.price)
      (((new sym t0).replay cs).getBids n) ∧
    ((new sym t0).replay cs).getBids n
      = List.take n.toNat (((new sym t0).replay cs).bids.reverse.map Prod.snd) ∧
    List.Pairwise (fun x y : OrderBookLevel => y.price < x.price)
      (((new sym t0).replay cs).bids.reverse.map Prod.snd) ∧
    (((((new sym t0).replay cs).getBids n).length : Int) < n
      ↔ (((new sym t0).replay cs).getBidLevels : Int) < n) := by
  have hall : List.Pairwise (fun x y : OrderBookLevel => y.price < x.price)
      (((new sym t0).replay cs).bids.reverse.map Prod.snd) := by
    rw [List.map_reverse, List.pairwise_reverse]
    exact bids_prices_ascending sym t0 cs
  have heq : ((new sym t0).replay cs).getBids n
      = List.take n.toNat (((new sym t0).replay cs).bids.reverse.map Prod.snd) := by
    rw [getBids_eq, List.map_take]
  have hlen : ((((new sym t0).replay cs).getBids n).length : Int)
      = min n (((new sym t0).replay cs).getBidLevels : Int) := by
    rw [heq, List.length_take, List.length_map, List.length_reverse, getBidLevels]
    omega
  refine ⟨hlen, ?_, heq, hall, ?_⟩
  · rw [heq]
    exact List.Pairwise.sublist (List.take_sublist _ _) hall
  · rw [hlen]
    omega

/-- Instance of C7: the two best bids after the sample calls. -/
theorem getBids_spec_witness :
    (0 : Int) ≤ 2 ∧
    (((((new "BTC-USD" 0).replay sampleCalls).getBids 2).length : Int)
      = min 2 (((new "BTC-USD" 0).replay sampleCalls).getBidLevels : Int) ∧
    List.Pairwise (fun x y : OrderBookLevel => y.price < x.price)
      (((new "BTC-USD" 0).replay sampleCalls).getBids 2) ∧
    ((new "BTC-USD" 0).replay sampleCalls).getBids 2
      = List.take (2 : Int).toNat
          (((new "BTC-USD" 0).replay sampleCalls).bids.reverse.map Prod.snd) ∧
    List.Pairwise (fun x y : OrderBookLevel => y.price < x.price)
      (((new "BTC-USD" 0).replay sampleCalls).bids.reverse.map Prod.snd) ∧
    (((((new "BTC-USD" 0).replay sampleCalls).getBids 2).length : Int) < 2
      ↔ (((new "BTC-USD" 0).replay sampleCalls).getBidLevels : Int) < 2)) :=
  ⟨by decide, getBids_spec "BTC-USD" 0 sampleCalls 2 (by decide)⟩

/-- C8: for every book reached from the empty book by `updateLevel` calls and every
integer `depth`, `getAsks(depth)` is the prefix of length `min(max(depth, 0), getAskLevels())`
of the list of all ask levels taken from the lowest key up, a list that ascends strictly by
price, so the result ascends strictly by price too; and when the result is not empty, the
price of its first level is `getBestAsk()`. -/
theorem getAsks_spec (sym : String) (t0 : Nat) (cs : List UpdateCall) (depth : Int) :
    ((new sym t0).replay cs).getAsks depth
      = List.take (max depth 0).toNat (((new sym t0).replay cs).asks.map Prod.snd) ∧
    ((((new sym t0).replay cs).getAsks depth).length : Int)
      = min (max depth 0) (((new sym t0).replay cs).getAskLevels : Int) ∧
    List.Pairwise (fun x y : OrderBookLevel => x.price < y.price)
      (((new sym t0).replay cs).asks.map Prod.snd) ∧
    List.Pairwise (fun x y : OrderBookLevel => x.price < y.price)
      (((new sym t0).replay cs).getAsks depth) ∧
    (∀ l rest, ((new sym t0).replay cs).getAsks depth = l :: rest →
      l.price = ((new sym t0).replay cs).getBestAsk) := by
  have hall := asks_prices_ascending sym t0 cs
  have hnat : (max depth 0).toNat = depth.toNat := by omega
  have heq : ((new sym t0).replay cs).getAsks depth
      = List.take (max depth 0).toNat (((new sym t0).replay cs).asks.map Prod.snd) := by
    rw [getAsks_eq, List.map_take, hnat]
  refine ⟨heq, ?_, hall, ?_, ?_⟩
  · rw [heq, List.length_take, List.length_map, getAskLevels]
    omega
  · rw [heq]
    exact List.Pairwise.sublist (List.take_sublist _ _) hall
  · intro l rest hl
    rw [getAsks_eq] at hl
    cases hasks : ((new sym t0).replay cs).asks with
    | nil => rw [hasks] at hl; simp at hl
    | cons e r =>
      have hk := key_eq_price_replay sym t0 cs e (Or.inr (by rw [hasks]; exact List.mem_cons_self _ _))
      rw [hasks] at hl
      cases hd : depth.toNat with
      | zero => rw [hd] at hl; simp at hl
      | succ k =>
        rw [hd] at hl
        simp only [List.take_succ_cons, List.map_cons, List.cons.injEq] at hl
        rw [← hl.1, ← hk]
        simp [getBestAsk, hasks]

end CoinbaseOrderBook

/-! ## Last writer wins -/

namespace CoinbaseOrderBook

/-- After a sequence of steps from a book whose projected map is empty, the projected map
holds at each key what the last step addressing that key wrote, provided each step acts on
the projected map as an erase or an assignment at the key of its call. -/
theorem find?_foldl_last (step : CoinbaseOrderBook → UpdateCall → CoinbaseOrderBook)
    (proj : CoinbaseOrderBook → LevelMap) (tgt : ℚ → UpdateCall → Bool)
    (rm : ℚ → Prop) [DecidablePred rm]
    (hord : ∀ b c, (proj b).Ordered → (proj (step b c)).Ordered)
    (hstep : ∀ b c k, (proj b).Ordered →
      (proj (step b c)).find? k =
        if tgt k c then
          (if rm c.quantity then none else some (OrderBookLevel.mk k c.quantity c.timestamp))
        else (proj b).find? k)
    (b0 : CoinbaseOrderBook) (h0 : proj b0 = []) (cs : List UpdateCall) (k : ℚ) :
    (proj (cs.foldl step b0)).Ordered ∧
    (proj (cs.foldl step b0)).find? k =
      match cs.reverse.find? (tgt k) with
      | none => none
      | some c =>
        if rm c.quantity then none else some (OrderBookLevel.mk k c.quantity c.timestamp) := by
  induction cs using List.reverseRecOn with
  | nil =>
    simp only [List.foldl_nil, List.reverse_nil, List.find?_nil, h0]
    exact ⟨LevelMap.ordered_nil, rfl⟩
  | append_singleton cs c ih =>
    rw [List.foldl_append, List.reverse_append]
    simp only [List.foldl_cons, List.foldl_nil, List.reverse_cons, List.reverse_nil,
      List.nil_append, List.singleton_append, List.find?_cons]
    refine ⟨hord _ c ih.1, ?_⟩
    rw [hstep _ c k ih.1]
    by_cases ht : tgt k c = true
    · simp only [ht, if_true]
    · have hf : tgt k c = false := by simpa using ht
      simp only [hf, Bool.false_eq_true, if_false]
      exact ih.2

theorem find?_erase_eq {m : LevelMap} (hm : m.Ordered) (key k : ℚ) :
    (m.erase key).find? k = if key = k then none else m.find? k := by
  split_ifs with h
  · rw [← h]; exact LevelMap.find?_erase_self hm key
  · exact LevelMap.find?_erase_ne m (Ne.symm h)

theorem find?_assign_eq (m : LevelMap) (key k : ℚ) (value : OrderBookLevel) :
    (m.assign key value).find? k = if key = k then some value else m.find? k := by
  split_ifs with h
  · rw [← h]; exact LevelMap.find?_assign_self m key value
  · exact LevelMap.find?_assign_ne m value (Ne.symm h)

theorem ordered_bids_applyCall (b : CoinbaseOrderBook) (c : UpdateCall)
    (hb : b.bids.Ordered) : (b.applyCall c).bids.Ordered := by
  by_cases hs : c.side = "bid" <;> by_cases hq : c.quantity < 0.05 <;>
    simp only [applyCall, updateLevel, hs, hq, if_true, if_false]
  · exact hb.erase _
  · exact hb.assign _ _
  · exact hb
  · exact hb

theorem ordered_asks_applyCall (b : CoinbaseOrderBook) (c : UpdateCall)
    (hb : b.asks.Ordered) : (b.applyCall c).asks.Ordered := by
  by_cases hs : c.side = "bid" <;> by_cases hq : c.quantity < 0.05 <;>
    simp only [applyCall, updateLevel, hs, hq, if_true, if_false]
  · exact hb
  · exact hb
  · exact hb.erase _
  · exact hb.assign _ _

theorem find?_bids_applyCall (b : CoinbaseOrderBook) (c : UpdateCall) (k : ℚ)
    (hb : b.bids.Ordered) :
    (b.applyCall c).bids.find? k =
      if addresses true k c then
        (if c.quantity < 0.05 then none
         else some (OrderBookLevel.mk k c.quantity c.timestamp))
      else b.bids.find? k := by
  by_cases hs : c.side = "bid" <;> by_cases hq : c.quantity < 0.05 <;>
    by_cases hk : c.price = k <;>
    simp [applyCall, updateLevel, addresses, hs, hq, hk, find?_erase_eq hb, find?_assign_eq]

theorem find?_asks_applyCall (b : CoinbaseOrderBook) (c : UpdateCall) (k : ℚ)
    (hb : b.asks.Ordered) :
    (b.applyCall c).asks.find? k =
      if addresses false k c then
        (if c.quantity < 0.05 then none
         else some (OrderBookLevel.mk k c.quantity c.timestamp))
      else b.asks.find? k := by
  by_cases hs : c.side = "bid" <;> by_cases hq : c.quantity < 0.05 <;>
    by_cases hk : c.price = k <;>
    simp [applyCall, updateLevel, addresses, hs, hq, hk, find?_erase_eq hb, find?_assign_eq]

theorem find?_bids_replay (sym : String) (t0 : Nat) (cs : List UpdateCall) (p : ℚ) :
    ((new sym t0).replay cs).bids.find? p = lastWriterLevel true p cs :=
  (find?_foldl_last applyCall (fun b => b.bids) (fun k c => addresses true k c)
    (fun q => q < 0.05) ordered_bids_applyCall find?_bids_applyCall
    (new sym t0) rfl cs p).2

theorem find?_asks_replay (sym : String) (t0 : Nat) (cs : List UpdateCall) (p : ℚ) :
    ((new sym t0).replay cs).asks.find? p = lastWriterLevel false p cs :=
  (find?_foldl_last applyCall (fun b => b.asks) (fun k c => addresses false k c)
    (fun q => q < 0.05) ordered_asks_applyCall find?_asks_applyCall
    (new sym t0) rfl cs p).2

theorem lastCall_cons (bidSide : Bool) (p : ℚ) (c : UpdateCall) (l : List UpdateCall) :
    lastCall bidSide p (c :: l)
      = (lastCall bidSide p l).or (if addresses bidSide p c then some c else none) := by
  simp only [lastCall, List.reverse_cons, List.find?_append, List.find?_cons, List.find?_nil]
  cases addresses bidSide p c <;> simp

theorem addresses_of_sameTarget {bidSide : Bool} {p : ℚ} {c d : UpdateCall}
    (h : sameTarget c d = true) (hc : addresses bidSide p c = true) :
    addresses bidSide p d = true := by
  simp only [sameTarget, addresses, Bool.and_eq_true, beq_iff_eq, decide_eq_true_eq] at h hc ⊢
  exact ⟨by rw [← h.1]; exact hc.1, by rw [← h.2]; exact hc.2⟩

theorem keepLast_sublist (cs : List UpdateCall) : List.Sublist (keepLast cs) cs := by
  induction cs with
  | nil => exact List.Sublist.refl _
  | cons c rest ih =>
    unfold keepLast
    split_ifs
    · exact List.Sublist.cons _ ih
    · exact List.Sublist.cons₂ _ ih

theorem keepLast_distinct (cs : List UpdateCall) :
    List.Pairwise (fun c d => sameTarget c d = false) (keepLast cs) := by
  induction cs with
  | nil => exact List.Pairwise.nil
  | cons c rest ih =>
    unfold keepLast
    split_ifs with h
    · exact ih
    · refine List.Pairwise.cons ?_ ih
      intro d hd
      have hd2 : d ∈ rest := (keepLast_sublist rest).subset hd
      cases hst : sameTarget c d with
      | false => rfl
      | true => exact absurd (List.any_eq_true.2 ⟨d, hd2, hst⟩) h

theorem lastCall_keepLast (bidSide : Bool) (p : ℚ) (cs : List UpdateCall) :
    lastCall bidSide p (keepLast cs) = lastCall bidSide p cs := by
  induction cs with
  | nil => rfl
  | cons c rest ih =>
    rw [lastCall_cons]
    unfold keepLast
    by_cases h : rest.any (sameTarget c) = true
    · rw [if_pos h, ih]
      by_cases h2 : addresses bidSide p c = true
      · obtain ⟨r, hr, hcr⟩ := List.any_eq_true.1 h
        have hr2 : addresses bidSide p r = true := addresses_of_sameTarget hcr h2
        have hsome : (lastCall bidSide p rest).isSome = true := by
          unfold lastCall
          rw [List.find?_isSome]
          exact ⟨r, List.mem_reverse.2 hr, hr2⟩
        cases hl : lastCall bidSide p rest with
        | none => rw [hl] at hsome; simp at hsome
        | some d => rfl
      · rw [if_neg h2]
        simp
    · rw [if_neg h, lastCall_cons, ih]

theorem lastWriterLevel_keepLast (bidSide : Bool) (p : ℚ) (cs : List UpdateCall) :
    lastWriterLevel bidSide p (keepLast cs) = lastWriterLevel bidSide p cs := by
  unfold lastWriterLevel
  rw [lastCall_keepLast]

end CoinbaseOrderBook

namespace MainCpp

open CoinbaseOrderBook

theorem ordered_bids_applyCall_main (b : CoinbaseOrderBook) (c : UpdateCall)
    (hb : b.bids.Ordered) : (applyCall b c).bids.Ordered := by
  unfold applyCall updateLevel
  split_ifs
  · exact hb.erase _
  · exact hb.assign _ _
  · exact hb
  · exact hb
  · exact hb

theorem ordered_asks_applyCall_main (b : CoinbaseOrderBook) (c : UpdateCall)
    (hb : b.asks.Ordered) : (applyCall b c).asks.Ordered := by
  unfold applyCall updateLevel
  split_ifs
  · exact hb
  · exact hb
  · exact hb.erase _
  · exact hb.assign _ _
  · exact hb

theorem find?_bids_applyCall_main (b : CoinbaseOrderBook) (c : UpdateCall) (k : ℚ)
    (hb : b.bids.Ordered) :
    (applyCall b c).bids.find? k =
      if addressesMain true k c then
        (if c.quantity = 0 then none
         else some (OrderBookLevel.mk k c.quantity c.timestamp))
      else b.bids.find? k := by
  by_cases hs : c.side = "bid" <;> by_cases hs2 : c.side = "offer" <;>
    by_cases hq : c.quantity = 0 <;> by_cases hk : c.price = k <;>
    simp [applyCall, updateLevel, addressesMain, hs, hs2, hq, hk, find?_erase_eq hb,
      find?_assign_eq]

theorem find?_asks_applyCall_main (b : CoinbaseOrderBook) (c : UpdateCall) (k : ℚ)
    (hb : b.asks.Ordered) :
    (applyCall b c).asks.find? k =
      if addressesMain false k c then
        (if c.quantity = 0 then none
         else some (OrderBookLevel.mk k c.quantity c.timestamp))
      else b.asks.find? k := by
  by_cases hs : c.side = "bid" <;> by_cases hs2 : c.side = "offer" <;>
    by_cases hq : c.quantity = 0 <;> by_cases hk : c.price = k <;>
    simp [applyCall, updateLevel, addressesMain, hs, hs2, hq, hk, find?_erase_eq hb,
      find?_assign_eq]

theorem find?_bids_replay_main (sym : String) (t0 : Nat) (cs : List UpdateCall) (p : ℚ) :
    (replay (CoinbaseOrderBook.new sym t0) cs).bids.find? p = lastWriterLevelMain true p cs :=
  (find?_foldl_last applyCall (fun b => b.bids) (fun k c => addressesMain true k c)
    (fun q => q = 0) ordered_bids_applyCall_main find?_bids_applyCall_main
    (CoinbaseOrderBook.new sym t0) rfl cs p).2

theorem find?_asks_replay_main (sym : String) (t0 : Nat) (cs : List UpdateCall) (p : ℚ) :
    (replay (CoinbaseOrderBook.new sym t0) cs).asks.find? p = lastWriterLevelMain false p cs :=
  (find?_foldl_last applyCall (fun b => b.asks) (fun k c => addressesMain false k c)
    (fun q => q = 0) ordered_asks_applyCall_main find?_asks_applyCall_main
    (CoinbaseOrderBook.new sym t0) rfl cs p).2

end MainCpp

namespace CoinbaseOrderBook

/-- C1: for every sequence of `updateLevel` calls applied to an empty book, both maps are
ordered and each (side, price) pair holds exactly what the last call for that pair wrote:
the level with that call's quantity and timestamp when the quantity is not below 0.05, and
nothing when it is below 0.05 or when no call addressed the pair.  The maps are the only
ordered maps with that content, and they equal the maps obtained by applying only the calls
that are the last for their pair, a subsequence in which no pair occurs twice.  The side of a
call is the collection its tag selects (bids for "bid", asks otherwise).  The method of
src/main.cpp obeys the same law with its own tags ("bid", "offer") and removal rule
(quantity exactly 0). -/
theorem replay_last_writer_wins (sym : String) (t0 : Nat) (cs : List UpdateCall) :
    ((new sym t0).replay cs).WellFormed ∧
    (∀ p, ((new sym t0).replay cs).bids.find? p = lastWriterLevel true p cs) ∧
    (∀ p, ((new sym t0).replay cs).asks.find? p = lastWriterLevel false p cs) ∧
    (∀ m : LevelMap, m.Ordered → (∀ p, m.find? p = lastWriterLevel true p cs) →
      m = ((new sym t0).replay cs).bids) ∧
    (∀ m : LevelMap, m.Ordered → (∀ p, m.find? p = lastWriterLevel false p cs) →
      m = ((new sym t0).replay cs).asks) ∧
    ((new sym t0).replay (keepLast cs)).bids = ((new sym t0).replay cs).bids ∧
    ((new sym t0).replay (keepLast cs)).asks = ((new sym t0).replay cs).asks ∧
    List.Sublist (keepLast cs) cs ∧
    List.Pairwise (fun c d => sameTarget c d = false) (keepLast cs) ∧
    (MainCpp.replay (new sym t0) cs).WellFormed ∧
    (∀ p, (MainCpp.replay (new sym t0) cs).bids.find? p
      = MainCpp.lastWriterLevelMain true p cs) ∧
    (∀ p, (MainCpp.replay (new sym t0) cs).asks.find? p
      = MainCpp.lastWriterLevelMain false p cs) := by
  have hwf := (wellFormed_new sym t0).replay cs
  have hwfk := (wellFormed_new sym t0).replay (keepLast cs)
  refine ⟨hwf, find?_bids_replay sym t0 cs, find?_asks_replay sym t0 cs, ?_, ?_, ?_, ?_,
    keepLast_sublist cs, keepLast_distinct cs,
    MainCpp.wellFormed_replay_main (wellFormed_new sym t0) cs,
    MainCpp.find?_bids_replay_main sym t0 cs, MainCpp.find?_asks_replay_main sym t0 cs⟩
  · intro m hm h
    exact LevelMap.ext_find? hm hwf.1 (fun p => by rw [h p, find?_bids_replay])
  · intro m hm h
    exact LevelMap.ext_find? hm hwf.2 (fun p => by rw [h p, find?_asks_replay])
  · exact LevelMap.ext_find? hwfk.1 hwf.1 (fun p => by
      rw [find?_bids_replay, find?_bids_replay, lastWriterLevel_keepLast])
  · exact LevelMap.ext_find? hwfk.2 hwf.2 (fun p => by
      rw [find?_asks_replay, find?_asks_replay, lastWriterLevel_keepLast])

end CoinbaseOrderBook

/-! ## Spread -/

namespace CoinbaseOrderBook

theorem getBestBid_of_nil {b : CoinbaseOrderBook} (h : b.bids = []) : b.getBestBid = 0 := by
  simp [getBestBid, h]

theorem getBestAsk_of_nil {b : CoinbaseOrderBook} (h : b.asks = []) : b.getBestAsk = 0 := by
  simp [getBestAsk, h]

theorem getBestBid_mem {b : CoinbaseOrderBook} (h : b.bids ≠ []) :
    ∃ e ∈ b.bids, b.getBestBid = e.1 := by
  cases hl : b.bids.getLast? with
  | none => exact absurd (List.getLast?_eq_none_iff.1 hl) h
  | some e => exact ⟨e, List.mem_of_getLast?_eq_some hl, by simp [getBestBid, hl]⟩

theorem getBestAsk_mem {b : CoinbaseOrderBook} (h : b.asks ≠ []) :
    ∃ e ∈ b.asks, b.getBestAsk = e.1 := by
  cases hl : b.asks.head? with
  | none => exact absurd (List.head?_eq_none_iff.1 hl) h
  | some e => exact ⟨e, List.mem_of_mem_head? hl, by simp [getBestAsk, hl]⟩

/-- Every key of a book reached from the empty book is the price of one of the calls. -/
theorem key_bound_replay (sym : String) (t0 : Nat) (cs : List UpdateCall) (P : ℚ → Prop)
    (hcs : ∀ c ∈ cs, P c.price) :
    ∀ e, e ∈ ((new sym t0).replay cs).bids ∨ e ∈ ((new sym t0).replay cs).asks → P e.1 := by
  intro e he
  obtain ⟨c, hc, hce, _⟩ := entries_replay sym t0 cs e he
  rw [hce]
  exact hcs c hc

theorem getBestBid_nonneg (sym : String) (t0 : Nat) (cs : List UpdateCall)
    (hcs : ∀ c ∈ cs, 0 ≤ c.price) : 0 ≤ ((new sym t0).replay cs).getBestBid := by
  by_cases h : ((new sym t0).replay cs).bids = []
  · rw [getBestBid_of_nil h]
  · obtain ⟨e, he, hbe⟩ := getBestBid_mem h
    rw [hbe]
    exact key_bound_replay sym t0 cs (fun x => 0 ≤ x) hcs e (Or.inl he)

theorem getBestAsk_nonneg (sym : String) (t0 : Nat) (cs : List UpdateCall)
    (hcs : ∀ c ∈ cs, 0 ≤ c.price) : 0 ≤ ((new sym t0).replay cs).getBestAsk := by
  by_cases h : ((new sym t0).replay cs).asks = []
  · rw [getBestAsk_of_nil h]
  · obtain ⟨e, he, hbe⟩ := getBestAsk_mem h
    rw [hbe]
    exact key_bound_replay sym t0 cs (fun x => 0 ≤ x) hcs e (Or.inr he)

theorem getBestBid_pos (sym : String) (t0 : Nat) (cs : List UpdateCall)
    (hcs : ∀ c ∈ cs, 0 < c.price) (h : ((new sym t0).replay cs).bids ≠ []) :
    0 < ((new sym t0).replay cs).getBestBid := by
  obtain ⟨e, he, hbe⟩ := getBestBid_mem h
  rw [hbe]
  exact key_bound_replay sym t0 cs (fun x => 0 < x) hcs e (Or.inl he)

theorem getBestAsk_pos (sym : String) (t0 : Nat) (cs : List UpdateCall)
    (hcs : ∀ c ∈ cs, 0 < c.price) (h : ((new sym t0).replay cs).asks ≠ []) :
    0 < ((new sym t0).replay cs).getBestAsk := by
  obtain ⟨e, he, hbe⟩ := getBestAsk_mem h
  rw [hbe]
  exact key_bound_replay sym t0 cs (fun x => 0 < x) hcs e (Or.inr he)

theorem scenario_book (sym : String) (t0 : Nat) :
    (new sym t0).replay scenarioCalls =
      { bids := [(100, OrderBookLevel.mk 100 2 "")],
        asks := [(100.5, OrderBookLevel.mk 100.5 1.5 "")],
        symbol := sym, last_update := 2 } := by
  simp [replay, applyCall, updateLevel, new, scenarioCalls, LevelMap.assign]
  norm_num

theorem zeroBid_book (sym : String) (t0 : Nat) :
    (new sym t0).replay zeroBidCalls =
      { bids := [(0, OrderBookLevel.mk 0 2 "")],
        asks := [(100.5, OrderBookLevel.mk 100.5 1.5 "")],
        symbol := sym, last_update := 2 } := by
  simp [replay, applyCall, updateLevel, new, zeroBidCalls, LevelMap.assign]
  norm_num

theorem zeroBoth_book (sym : String) (t0 : Nat) :
    (new sym t0).replay zeroBothCalls =
      { bids := [(0, OrderBookLevel.mk 0 2 "")],
        asks := [(0, OrderBookLevel.mk 0 1.5 "")],
        symbol := sym, last_update := 2 } := by
  simp [replay, applyCall, updateLevel, new, zeroBothCalls, LevelMap.assign]
  norm_num

/-- C9 as stated fails: after a bid at price 0 and an ask at 100.50, calls that satisfy
`price ≥ 0`, both sides are non-empty and `getBestAsk() - getBestBid()` is 100.50, yet
`getSpread()` returns 0. -/
theorem getSpread_zero_bid_counterexample :
    (∀ c ∈ zeroBidCalls, 0 ≤ c.price) ∧
    ((new "BTC-USD" 0).replay zeroBidCalls).bids ≠ [] ∧
    ((new "BTC-USD" 0).replay zeroBidCalls).asks ≠ [] ∧
    ((new "BTC-USD" 0).replay zeroBidCalls).getSpread = 0 ∧
    ((new "BTC-USD" 0).replay zeroBidCalls).getBestAsk
      - ((new "BTC-USD" 0).replay zeroBidCalls).getBestBid = 100.5 ∧
    ((new "BTC-USD" 0).replay zeroBidCalls).getSpread ≠
      ((new "BTC-USD" 0).replay zeroBidCalls).getBestAsk
        - ((new "BTC-USD" 0).replay zeroBidCalls).getBestBid := by
  rw [zeroBid_book]
  refine ⟨?_, ?_, ?_, ?_, ?_, ?_⟩
  · intro c hc
    simp only [zeroBidCalls, List.mem_cons, List.mem_singleton, List.not_mem_nil,
      or_false] at hc
    rcases hc with h | h
    · rw [h]
    · rw [h]
      norm_num
  · simp
  · simp
  · simp [getSpread, getBestBid, getBestAsk]
  · simp [getBestBid, getBestAsk]
  · simp [getSpread, getBestBid, getBestAsk]
    norm_num

/-- C9, amended: for every book reached from the empty book by `updateLevel` calls with
`price ≥ 0`, `getSpread` returns `getBestAsk() - getBestBid()` whenever both sides are
non-empty and neither best price is 0, and returns 0 whenever a side is empty or a best
price is 0.  When every call has `price > 0`, it returns `getBestAsk() - getBestBid()`
whenever both sides are non-empty.  From the empty book, a bid at 100.00 (quantity 2.0) and
an ask at 100.50 (quantity 1.5) give best bid 100.00, best ask 100.50 and spread 0.50. -/
theorem getSpread_spec (sym : String) (t0 : Nat) (cs : List UpdateCall)
    (hcs : ∀ c ∈ cs, 0 ≤ c.price) :
    (((new sym t0).replay cs).bids ≠ [] ∧ ((new sym t0).replay cs).asks ≠ [] ∧
        ((new sym t0).replay cs).getBestBid ≠ 0 ∧ ((new sym t0).replay cs).getBestAsk ≠ 0 →
      ((new sym t0).replay cs).getSpread
        = ((new sym t0).replay cs).getBestAsk - ((new sym t0).replay cs).getBestBid) ∧
    (((new sym t0).replay cs).bids = [] ∨ ((new sym t0).replay cs).asks = [] ∨
        ((new sym t0).replay cs).getBestBid = 0 ∨ ((new sym t0).replay cs).getBestAsk = 0 →
      ((new sym t0).replay cs).getSpread = 0) ∧
    ((∀ c ∈ cs, 0 < c.price) →
      ((new sym t0).replay cs).bids ≠ [] ∧ ((new sym t0).replay cs).asks ≠ [] →
      ((new sym t0).replay cs).getSpread
        = ((new sym t0).replay cs).getBestAsk - ((new sym t0).replay cs).getBestBid) ∧
    (((new sym t0).replay scenarioCalls).getBestBid = 100 ∧
      ((new sym t0).replay scenarioCalls).getBestAsk = 100.5 ∧
      ((new sym t0).replay scenarioCalls).getSpread = 0.5) := by
  have hbid := getBestBid_nonneg sym t0 cs hcs
  have hask := getBestAsk_nonneg sym t0 cs hcs
  refine ⟨?_, ?_, ?_, ?_⟩
  · rintro ⟨_, _, h1, h2⟩
    have h3 : 0 < ((new sym t0).replay cs).getBestBid := lt_of_le_of_ne hbid (Ne.symm h1)
    have h4 : 0 < ((new sym t0).replay cs).getBestAsk := lt_of_le_of_ne hask (Ne.symm h2)
    simp only [getSpread, h3, h4, and_self, if_true]
  · intro h
    have h0 : ((new sym t0).replay cs).getBestBid = 0 ∨
        ((new sym t0).replay cs).getBestAsk = 0 := by
      rcases h with h | h | h | h
      · exact Or.inl (getBestBid_of_nil h)
      · exact Or.inr (getBestAsk_of_nil h)
      · exact Or.inl h
      · exact Or.inr h
    rcases h0 with h0 | h0 <;> simp [getSpread, h0]
  · intro hpos h
    have h3 := getBestBid_pos sym t0 cs hpos h.1
    have h4 := getBestAsk_pos sym t0 cs hpos h.2
    simp only [getSpread, h3, h4, and_self, if_true]
  · rw [scenario_book]
    refine ⟨by simp [getBestBid], by simp [getBestAsk], ?_⟩
    simp [getSpread, getBestBid, getBestAsk]
    norm_num

/-- Instance of the amended C9 on the calls of the specification scenario. -/
theorem getSpread_spec_witness :
    (∀ c ∈ scenarioCalls, 0 ≤ c.price) ∧
    ((((new "BTC-USD" 0).replay scenarioCalls).bids ≠ [] ∧
        ((new "BTC-USD" 0).replay scenarioCalls).asks ≠ [] ∧
        ((new "BTC-USD" 0).replay scenarioCalls).getBestBid ≠ 0 ∧
        ((new "BTC-USD" 0).replay scenarioCalls).getBestAsk ≠ 0 →
      ((new "BTC-USD" 0).replay scenarioCalls).getSpread
        = ((new "BTC-USD" 0).replay scenarioCalls).getBestAsk
          - ((new "BTC-USD" 0).replay scenarioCalls).getBestBid) ∧
    (((new "BTC-USD" 0).replay scenarioCalls).bids = [] ∨
        ((new "BTC-USD" 0).replay scenarioCalls).asks = [] ∨
        ((new "BTC-USD" 0).replay scenarioCalls).getBestBid = 0 ∨
        ((new "BTC-USD" 0).replay scenarioCalls).getBestAsk = 0 →
      ((new "BTC-USD" 0).replay scenarioCalls).getSpread = 0) ∧
    ((∀ c ∈ scenarioCalls, 0 < c.price) →
      ((new "BTC-USD" 0).replay scenarioCalls).bids ≠ [] ∧
        ((new "BTC-USD" 0).replay scenarioCalls).asks ≠ [] →
      ((new "BTC-USD" 0).replay scenarioCalls).getSpread
        = ((new "BTC-USD" 0).replay scenarioCalls).getBestAsk
          - ((new "BTC-USD" 0).replay scenarioCalls).getBestBid) ∧
    (((new "BTC-USD" 0).replay scenarioCalls).getBestBid = 100 ∧
      ((new "BTC-USD" 0).replay scenarioCalls).getBestAsk = 100.5 ∧
      ((new "BTC-USD" 0).replay scenarioCalls).getSpread = 0.5)) :=
  have hcs : ∀ c ∈ scenarioCalls, 0 ≤ c.price := by
    intro c hc
    simp only [scenarioCalls, List.mem_cons, List.mem_singleton, List.not_mem_nil,
      or_false] at hc
    rcases hc with h | h <;> rw [h] <;> norm_num
  ⟨hcs, getSpread_spec "BTC-USD" 0 scenarioCalls hcs⟩

/-- C10 as stated fails: after a bid at price 0 and an ask at price 0, calls that satisfy
`price ≥ 0`, both sides are non-empty, so the stated value is
`(getSpread() / ((getBestBid() + getBestAsk()) / 2)) * 10000`, whose divisor is 0: the
formula has no value there, while `getSpreadBps()` returns 0. -/
theorem getSpreadBps_zero_prices_counterexample :
    (∀ c ∈ zeroBothCalls, 0 ≤ c.price) ∧
    ((new "BTC-USD" 0).replay zeroBothCalls).bids ≠ [] ∧
    ((new "BTC-USD" 0).replay zeroBothCalls).asks ≠ [] ∧
    (((new "BTC-USD" 0).replay zeroBothCalls).getBestBid
      + ((new "BTC-USD" 0).replay zeroBothCalls).getBestAsk) / 2 = 0 ∧
    ((new "BTC-USD" 0).replay zeroBothCalls).getSpreadBps = 0 ∧
    spreadBasisPointsSpec ((new "BTC-USD" 0).replay zeroBothCalls) = none ∧
    spreadBasisPointsSpec ((new "BTC-USD" 0).replay zeroBothCalls)
      ≠ some ((new "BTC-USD" 0).replay zeroBothCalls).getSpreadBps := by
  rw [zeroBoth_book]
  refine ⟨?_, ?_, ?_, ?_, ?_, ?_, ?_⟩
  · intro c hc
    simp only [zeroBothCalls, List.mem_cons, List.mem_singleton, List.not_mem_nil,
      or_false] at hc
    rcases hc with h | h <;> rw [h]
  · simp
  · simp
  · simp [getBestBid, getBestAsk]
  · simp [getSpreadBps, getBestBid, getBestAsk]
  · simp [spreadBasisPointsSpec, checkedDiv, getSpread, getBestBid, getBestAsk]
  · simp [spreadBasisPointsSpec, checkedDiv, getSpread, getBestBid, getBestAsk]

/-- C10, amended: for every book, hence for every book reached from the empty book by
`updateLevel` calls with `price ≥ 0`, `getSpreadBps` returns
`(getSpread() / ((getBestBid() + getBestAsk()) / 2)) * 10000` whenever both sides are
non-empty and that midpoint is not 0, and returns 0 whenever a side is empty or the midpoint
is 0.  The result is the exact quotient, and the division the method performs never has a
zero divisor.  The book with best bid 100.00 and best ask 100.50 gives
`0.50 / 100.25 * 10000 = 20000/401`. -/
theorem getSpreadBps_spec (b : CoinbaseOrderBook) (sym : String) (t0 : Nat) :
    (b.bids ≠ [] ∧ b.asks ≠ [] ∧ (b.getBestBid + b.getBestAsk) / 2 ≠ 0 →
      b.getSpreadBps = (b.getSpread / ((b.getBestBid + b.getBestAsk) / 2)) * 10000 ∧
      spreadBasisPointsSpec b = some b.getSpreadBps) ∧
    (b.bids = [] ∨ b.asks = [] ∨ (b.getBestBid + b.getBestAsk) / 2 = 0 →
      b.getSpreadBps = 0) ∧
    getSpreadBpsChecked b = some b.getSpreadBps ∧
    (((new sym t0).replay scenarioCalls).getSpreadBps = 20000 / 401 ∧
      ((0.5 : ℚ) / 100.25) * 10000 = 20000 / 401) := by
  have hformula : b.getSpreadBps
      = (b.getSpread / ((b.getBestBid + b.getBestAsk) / 2)) * 10000 := by
    by_cases hg : 0 < b.getBestBid ∧ 0 < b.getBestAsk
    · simp only [getSpreadBps, getSpread, hg, and_self, if_true]
      rw [add_comm b.getBestAsk b.getBestBid]
    · simp only [getSpreadBps, getSpread, hg, if_false]
      simp
  refine ⟨?_, ?_, ?_, ?_⟩
  · rintro ⟨h1, h2, h3⟩
    refine ⟨hformula, ?_⟩
    simp only [spreadBasisPointsSpec, checkedDiv, h1, h2, h3, ne_eq, not_false_eq_true,
      and_self, if_true, if_false, Option.map_some']
    rw [hformula]
  · intro h
    have hg : ¬ (0 < b.getBestBid ∧ 0 < b.getBestAsk) := by
      rintro ⟨h1, h2⟩
      rcases h with h | h | h
      · rw [getBestBid_of_nil h] at h1; exact lt_irrefl _ h1
      · rw [getBestAsk_of_nil h] at h2; exact lt_irrefl _ h2
      · linarith
    simp only [getSpreadBps, hg, if_false]
  · by_cases hg : 0 < b.getBestBid ∧ 0 < b.getBestAsk
    · have hne : ¬ (b.getBestAsk + b.getBestBid) / 2 = 0 := by
        have : 0 < (b.getBestAsk + b.getBestBid) / 2 := by linarith [hg.1, hg.2]
        exact ne_of_gt this
      simp only [getSpreadBpsChecked, getSpreadBps, checkedDiv, hg, hne, and_self, if_true,
        if_false, Option.map_some']
    · simp only [getSpreadBpsChecked, getSpreadBps, hg, if_false]
  · rw [scenario_book]
    constructor
    · simp [getSpreadBps, getBestBid, getBestAsk]
      norm_num
    · norm_num

end CoinbaseOrderBook

/-! ## Round trip, idempotence, unknown side tags, crossed books -/

namespace LevelMap

theorem erase_assign_of_absent {m : LevelMap} (hm : Ordered m) {key : ℚ}
    (h : find? m key = none) (value : OrderBookLevel) :
    erase (assign m key value) key = m := by
  apply ext_find? ((hm.assign key value).erase key) hm
  intro k
  by_cases hk : k = key
  · rw [hk, find?_erase_self (hm.assign key value) key, h]
  · rw [find?_erase_ne _ hk, find?_assign_ne _ _ hk]

theorem erase_erase {m : LevelMap} (hm : Ordered m) (key : ℚ) :
    erase (erase m key) key = erase m key :=
  erase_eq_self (hm.erase key) (find?_erase_self hm key)

theorem assign_assign {m : LevelMap} (hm : Ordered m) (key : ℚ) (value : OrderBookLevel) :
    assign (assign m key value) key value = assign m key value := by
  apply ext_find? ((hm.assign key value).assign key value) (hm.assign key value)
  intro k
  by_cases hk : k = key
  · rw [hk, find?_assign_self, find?_assign_self]
  · rw [find?_assign_ne _ _ hk]

end LevelMap

namespace CoinbaseOrderBook

theorem zero_lt_threshold : (0 : ℚ) < 0.05 := by norm_num

theorem ne_zero_of_not_lt_threshold {q : ℚ} (hq : ¬ q < 0.05) : q ≠ 0 := by
  intro h
  apply hq
  rw [h]
  norm_num

end CoinbaseOrderBook

namespace CoinbaseOrderBook

theorem le_getBestBid {b : CoinbaseOrderBook} (hb : b.bids.Ordered) {e : ℚ × OrderBookLevel}
    (he : e ∈ b.bids) : e.1 ≤ b.getBestBid := by
  cases hl : b.bids.getLast? with
  | none =>
    rw [List.getLast?_eq_none_iff.1 hl] at he
    simp at he
  | some x =>
    simp only [getBestBid, hl]
    exact (LevelMap.le_getLast_of_ordered hb hl).2 e he

/-- C11: on a book whose maps are ordered, for every price `p` that is not a key of `bids`,
every quantity `q` not below 0.05 and all timestamps, `updateLevel("bid", p, q, t1)` followed
by `updateLevel("bid", p, 0, t2)` leaves `bids` and `asks` exactly as they were before the
two calls, with the method of src/src/OrderBook.cpp and with that of src/main.cpp.  From the
empty book, with `p = 100` and `q = 5`, the two calls leave `getBidLevels() == 0` and
`getBestBid() == 0`. -/
theorem removal_round_trip (b : CoinbaseOrderBook) (p q : ℚ) (t1 t2 : String) (n1 n2 : Nat)
    (sym : String) (t0 : Nat) (hb : b.WellFormed) (hp : b.bids.find? p = none)
    (hq : ¬ q < 0.05) :
    ((b.updateLevel "bid" p q t1 n1).updateLevel "bid" p 0 t2 n2).bids = b.bids ∧
    ((b.updateLevel "bid" p q t1 n1).updateLevel "bid" p 0 t2 n2).asks = b.asks ∧
    (((new sym t0).updateLevel "bid" 100 5 t1 n1).updateLevel "bid" 100 0 t2 n2).getBidLevels
      = 0 ∧
    (((new sym t0).updateLevel "bid" 100 5 t1 n1).updateLevel "bid" 100 0 t2 n2).getBestBid
      = 0 ∧
    (MainCpp.updateLevel (MainCpp.updateLevel b "bid" p q t1 n1) "bid" p 0 t2 n2).bids
      = b.bids ∧
    (MainCpp.updateLevel (MainCpp.updateLevel b "bid" p q t1 n1) "bid" p 0 t2 n2).asks
      = b.asks := by
  have h5 : ¬ (5 : ℚ) < 0.05 := by norm_num
  have hq0 : q ≠ 0 := ne_zero_of_not_lt_threshold hq
  refine ⟨?_, ?_, ?_, ?_, ?_, ?_⟩
  · simp only [updateLevel, hq, zero_lt_threshold, if_true, if_false]
    exact LevelMap.erase_assign_of_absent hb.1 hp _
  · simp only [updateLevel, hq, zero_lt_threshold, if_true, if_false]
  · simp only [updateLevel, h5, zero_lt_threshold, if_true, if_false, getBidLevels, new]
    rw [LevelMap.erase_assign_of_absent LevelMap.ordered_nil rfl]
    rfl
  · simp only [updateLevel, h5, zero_lt_threshold, if_true, if_false, getBestBid, new]
    rw [LevelMap.erase_assign_of_absent LevelMap.ordered_nil rfl]
    rfl
  · simp only [MainCpp.updateLevel, hq0, if_true, if_false]
    exact LevelMap.erase_assign_of_absent hb.1 hp _
  · simp only [MainCpp.updateLevel, hq0, if_true, if_false]

end CoinbaseOrderBook

namespace CoinbaseOrderBook

theorem sampleBook_no_bid_at_98 : sampleBook.bids.find? 98 = none := by
  simp [sampleBook, LevelMap.find?]

/-- Instance of C11 on the sample book: a bid at 98 is added and removed again. -/
theorem removal_round_trip_witness :
    sampleBook.WellFormed ∧ sampleBook.bids.find? 98 = none ∧ ¬ (5 : ℚ) < 0.05 ∧
    (((sampleBook.updateLevel "bid" 98 5 "t8" 4).updateLevel "bid" 98 0 "t9" 5).bids
      = sampleBook.bids ∧
    ((sampleBook.updateLevel "bid" 98 5 "t8" 4).updateLevel "bid" 98 0 "t9" 5).asks
      = sampleBook.asks ∧
    (((new "BTC-USD" 0).updateLevel "bid" 100 5 "t8" 4).updateLevel "bid" 100 0 "t9"
      5).getBidLevels = 0 ∧
    (((new "BTC-USD" 0).updateLevel "bid" 100 5 "t8" 4).updateLevel "bid" 100 0 "t9"
      5).getBestBid = 0 ∧
    (MainCpp.updateLevel (MainCpp.updateLevel sampleBook "bid" 98 5 "t8" 4) "bid" 98 0 "t9"
      5).bids = sampleBook.bids ∧
    (MainCpp.updateLevel (MainCpp.updateLevel sampleBook "bid" 98 5 "t8" 4) "bid" 98 0 "t9"
      5).asks = sampleBook.asks) :=
  ⟨wellFormed_sampleBook, sampleBook_no_bid_at_98, by norm_num,
    removal_round_trip sampleBook 98 5 "t8" "t9" 4 5 "BTC-USD" 0 wellFormed_sampleBook
      sampleBook_no_bid_at_98 (by norm_num)⟩

/-- C12: on a book whose maps are ordered, applying `updateLevel` twice in a row with the
same side, price, quantity and timestamp leaves the same `bids` and `asks` as applying it
once, for every quantity (one that inserts a level and one that removes it), with the
method of src/src/OrderBook.cpp and with that of src/main.cpp. -/
theorem updateLevel_idempotent (b : CoinbaseOrderBook) (side : String) (p q : ℚ)
    (ts : String) (n1 n2 n3 : Nat) (hb : b.WellFormed) :
    ((b.updateLevel side p q ts n1).updateLevel side p q ts n2).bids
      = (b.updateLevel side p q ts n3).bids ∧
    ((b.updateLevel side p q ts n1).updateLevel side p q ts n2).asks
      = (b.updateLevel side p q ts n3).asks ∧
    (MainCpp.updateLevel (MainCpp.updateLevel b side p q ts n1) side p q ts n2).bids
      = (MainCpp.updateLevel b side p q ts n3).bids ∧
    (MainCpp.updateLevel (MainCpp.updateLevel b side p q ts n1) side p q ts n2).asks
      = (MainCpp.updateLevel b side p q ts n3).asks := by
  have hmain :
      (MainCpp.updateLevel (MainCpp.updateLevel b side p q ts n1) side p q ts n2).bids
        = (MainCpp.updateLevel b side p q ts n3).bids ∧
      (MainCpp.updateLevel (MainCpp.updateLevel b side p q ts n1) side p q ts n2).asks
        = (MainCpp.updateLevel b side p q ts n3).asks := by
    by_cases hs : side = "bid"
    · by_cases hq : q = 0
      · simp only [MainCpp.updateLevel, hs, hq, if_true]
        exact ⟨LevelMap.erase_erase hb.1 _, trivial⟩
      · simp only [MainCpp.updateLevel, hs, hq, if_true, if_false]
        exact ⟨LevelMap.assign_assign hb.1 _ _, trivial⟩
    · by_cases hs2 : side = "offer"
      · subst hs2
        have hne : ¬ ("offer" : String) = "bid" := by decide
        by_cases hq : q = 0
        · simp only [MainCpp.updateLevel, hne, hq, if_true, if_false]
          exact ⟨trivial, LevelMap.erase_erase hb.2 _⟩
        · simp only [MainCpp.updateLevel, hne, hq, if_true, if_false]
          exact ⟨trivial, LevelMap.assign_assign hb.2 _ _⟩
      · simp only [MainCpp.updateLevel, hs, hs2, if_false]
        exact ⟨trivial, trivial⟩
  refine ⟨?_, ?_, hmain.1, hmain.2⟩
  · by_cases hs : side = "bid" <;> by_cases hq : q < 0.05 <;>
      simp only [updateLevel, hs, hq, if_true, if_false]
    · exact LevelMap.erase_erase hb.1 _
    · exact LevelMap.assign_assign hb.1 _ _
  · by_cases hs : side = "bid" <;> by_cases hq : q < 0.05 <;>
      simp only [updateLevel, hs, hq, if_true, if_false]
    · exact LevelMap.erase_erase hb.2 _
    · exact LevelMap.assign_assign hb.2 _ _

/-- Instance of C12 on the sample book: removing the bid level at 100 twice. -/
theorem updateLevel_idempotent_witness :
    sampleBook.WellFormed ∧
    (((sampleBook.updateLevel "bid" 100 0 "t9" 4).updateLevel "bid" 100 0 "t9" 5).bids
      = (sampleBook.updateLevel "bid" 100 0 "t9" 6).bids ∧
    ((sampleBook.updateLevel "bid" 100 0 "t9" 4).updateLevel "bid" 100 0 "t9" 5).asks
      = (sampleBook.updateLevel "bid" 100 0 "t9" 6).asks ∧
    (MainCpp.updateLevel (MainCpp.updateLevel sampleBook "bid" 100 0 "t9" 4) "bid" 100 0 "t9"
      5).bids = (MainCpp.updateLevel sampleBook "bid" 100 0 "t9" 6).bids ∧
    (MainCpp.updateLevel (MainCpp.updateLevel sampleBook "bid" 100 0 "t9" 4) "bid" 100 0 "t9"
      5).asks = (MainCpp.updateLevel sampleBook "bid" 100 0 "t9" 6).asks) :=
  ⟨wellFormed_sampleBook,
    updateLevel_idempotent sampleBook "bid" 100 0 "t9" 4 5 6 wellFormed_sampleBook⟩

end CoinbaseOrderBook

namespace CoinbaseOrderBook

/-- C13 evaluated on the code: `updateLevel` of src/src/OrderBook.cpp with the side tag
"sell", which is neither "bid" nor the ask tag, stores an ask level at 100 in the empty book,
so the call is not a no-op; every tag other than "bid" leaves `bids` alone and acts on `asks`
exactly as the tag "offer" does.  The method of src/main.cpp leaves `bids` and `asks`
unchanged for every tag other than "bid" and "offer". -/
theorem updateLevel_unknown_side :
    ((new "BTC-USD" 0).updateLevel "sell" 100 5 "" 1).asks
      = [(100, OrderBookLevel.mk 100 5 "")] ∧
    ((new "BTC-USD" 0).updateLevel "sell" 100 5 "" 1).asks ≠ (new "BTC-USD" 0).asks ∧
    (∀ (b : CoinbaseOrderBook) (side : String) (p q : ℚ) (ts : String) (now : Nat),
      side ≠ "bid" →
      (b.updateLevel side p q ts now).bids = b.bids ∧
      (b.updateLevel side p q ts now).asks = (b.updateLevel "offer" p q ts now).asks) ∧
    (∀ (b : CoinbaseOrderBook) (side : String) (p q : ℚ) (ts : String) (now : Nat),
      side ≠ "bid" → side ≠ "offer" →
      (MainCpp.updateLevel b side p q ts now).bids = b.bids ∧
      (MainCpp.updateLevel b side p q ts now).asks = b.asks) := by
  have h5 : ¬ (5 : ℚ) < 0.05 := by norm_num
  have hsell : ¬ ("sell" : String) = "bid" := by decide
  have hoffer : ¬ ("offer" : String) = "bid" := by decide
  refine ⟨?_, ?_, ?_, ?_⟩
  · simp only [updateLevel, new, hsell, h5, if_false, LevelMap.assign]
  · simp only [updateLevel, new, hsell, h5, if_false, LevelMap.assign]
    simp
  · intro b side p q ts now hs
    simp only [updateLevel, hs, hoffer, if_false]
    exact ⟨trivial, trivial⟩
  · intro b side p q ts now hs hs2
    simp only [MainCpp.updateLevel, hs, hs2, if_false]
    exact ⟨trivial, trivial⟩

/-- C14: on a book whose maps are ordered, for every price `p ≥ getBestAsk()` and every
quantity `q` not below 0.05, `updateLevel("bid", p, q, ts)` stores the bid level at `p` and
leaves the ask side, hence `getBestAsk()`, unchanged, so that afterwards
`getBestBid() ≥ getBestAsk()`; this holds for a non-empty ask side and also for an empty
one, where `getBestAsk()` is 0.  The book reached from the empty book by a bid at 101 and an
ask at 100 has both best prices non-zero and `getBestBid() > getBestAsk()`. -/
theorem crossed_book_accepted (b : CoinbaseOrderBook) (p q : ℚ) (ts : String) (now : Nat)
    (sym : String) (t0 : Nat) (hb : b.WellFormed) (hp : b.getBestAsk ≤ p)
    (hq : ¬ q < 0.05) :
    (b.updateLevel "bid" p q ts now).bids.find? p = some (OrderBookLevel.mk p q ts) ∧
    (b.updateLevel "bid" p q ts now).asks = b.asks ∧
    (b.updateLevel "bid" p q ts now).getBestAsk = b.getBestAsk ∧
    (b.updateLevel "bid" p q ts now).getBestAsk ≤ (b.updateLevel "bid" p q ts now).getBestBid ∧
    (((new sym t0).replay crossedCalls).getBestBid = 101 ∧
      ((new sym t0).replay crossedCalls).getBestAsk = 100 ∧
      ((new sym t0).replay crossedCalls).getBestBid ≠ 0 ∧
      ((new sym t0).replay crossedCalls).getBestAsk ≠ 0 ∧
      ((new sym t0).replay crossedCalls).getBestAsk
        < ((new sym t0).replay crossedCalls).getBestBid) := by
  have hfind : (b.updateLevel "bid" p q ts now).bids.find? p
      = some (OrderBookLevel.mk p q ts) := by
    simp only [updateLevel, hq, if_true, if_false]
    exact LevelMap.find?_assign_self _ _ _
  have hasks : (b.updateLevel "bid" p q ts now).asks = b.asks := by
    simp only [updateLevel, hq, if_true, if_false]
  have hbest : (b.updateLevel "bid" p q ts now).getBestAsk = b.getBestAsk := by
    simp only [getBestAsk, hasks]
  have hwf := hb.updateLevel "bid" p q ts now
  have hle : p ≤ (b.updateLevel "bid" p q ts now).getBestBid :=
    le_getBestBid hwf.1 (LevelMap.mem_of_find? hfind)
  have hbook : (new sym t0).replay crossedCalls =
      { bids := [(101, OrderBookLevel.mk 101 1 "")],
        asks := [(100, OrderBookLevel.mk 100 1 "")],
        symbol := sym, last_update := 2 } := by
    simp [replay, applyCall, updateLevel, new, crossedCalls, LevelMap.assign]
    norm_num
  refine ⟨hfind, hasks, hbest, ?_, ?_⟩
  · rw [hbest]
    exact le_trans hp hle
  · rw [hbook]
    simp [getBestBid, getBestAsk]
    norm_num

/-- Instance of C14 on the sample book, whose best ask is 101: a bid at 102. -/
theorem crossed_book_accepted_witness :
    sampleBook.WellFormed ∧ sampleBook.getBestAsk ≤ 102 ∧ ¬ (3 : ℚ) < 0.05 ∧
    ((sampleBook.updateLevel "bid" 102 3 "t9" 4).bids.find? 102
      = some (OrderBookLevel.mk 102 3 "t9") ∧
    (sampleBook.updateLevel "bid" 102 3 "t9" 4).asks = sampleBook.asks ∧
    (sampleBook.updateLevel "bid" 102 3 "t9" 4).getBestAsk = sampleBook.getBestAsk ∧
    (sampleBook.updateLevel "bid" 102 3 "t9" 4).getBestAsk
      ≤ (sampleBook.updateLevel "bid" 102 3 "t9" 4).getBestBid ∧
    (((new "BTC-USD" 0).replay crossedCalls).getBestBid = 101 ∧
      ((new "BTC-USD" 0).replay crossedCalls).getBestAsk = 100 ∧
      ((new "BTC-USD" 0).replay crossedCalls).getBestBid ≠ 0 ∧
      ((new "BTC-USD" 0).replay crossedCalls).getBestAsk ≠ 0 ∧
      ((new "BTC-USD" 0).replay crossedCalls).getBestAsk
        < ((new "BTC-USD" 0).replay crossedCalls).getBestBid)) :=
  have hask : sampleBook.getBestAsk ≤ 102 := by
    simp [sampleBook, getBestAsk]
    norm_num
  ⟨wellFormed_sampleBook, hask, by norm_num,
    crossed_book_accepted sampleBook 102 3 "t9" 4 "BTC-USD" 0 wellFormed_sampleBook hask
      (by norm_num)⟩

end CoinbaseOrderBook

/-! ## The message handler: decoding one item -/

namespace Eval

@[simp] theorem value_bind {α β : Type} (a : α) (f : α → Eval β) :
    (Eval.value a >>= f) = f a := rfl

@[simp] theorem thrown_bind {α β : Type} (e : DecodeException) (f : α → Eval β) :
    ((Eval.thrown e : Eval α) >>= f) = Eval.thrown e := rfl

@[simp] theorem undefined_bind {α β : Type} (f : α → Eval β) :
    ((Eval.undefined : Eval α) >>= f) = Eval.undefined := rfl

@[simp] theorem pure_eq_value {α : Type} (a : α) : (pure a : Eval α) = Eval.value a := rfl

end Eval

namespace Json

theorem eq_object_of_find {j v : Json} {key : String} (h : j.find key = some v) :
    ∃ members, j = object members ∧ members.lookup key = some v := by
  cases j with
  | object members => exact ⟨members, rfl, h⟩
  | null => simp [find] at h
  | boolean b => simp [find] at h
  | number x => simp [find] at h
  | string s => simp [find] at h
  | array items => simp [find] at h

theorem contains_of_find {j v : Json} {key : String} (h : j.find key = some v) :
    j.contains key = true := by
  simp [contains, h]

theorem member_of_find {j v : Json} {key : String} (h : j.find key = some v) :
    j.member key = v := by
  simp [member, h]

theorem index_of_find {j v : Json} {key : String} (h : j.find key = some v) :
    j.index key = Eval.value v := by
  obtain ⟨members, rfl, hm⟩ := eq_object_of_find h
  simp [index, hm]

end Json

theorem decodeUpdate_of_encodes {stod : String → Option ℚ} {u : WireUpdate} {j : Json}
    (h : u.Encodes j) (hu : u.Convertible stod) :
    decodeUpdate stod j =
      Eval.value (u.side, (stod u.price_level).getD 0, (stod u.new_quantity).getD 0,
        u.event_time.getD "") := by
  obtain ⟨h1, h2, h3, h4⟩ := h
  obtain ⟨hp, hq⟩ := hu
  obtain ⟨p, hp⟩ := Option.isSome_iff_exists.1 hp
  obtain ⟨q, hq⟩ := Option.isSome_iff_exists.1 hq
  have hv : j.valueOr "event_time" "" = Eval.value (u.event_time.getD "") := by
    obtain ⟨members, rfl, _⟩ := Json.eq_object_of_find h1
    simp only [Json.find] at h4
    cases ht : u.event_time with
    | none => simp [Json.valueOr, h4, ht]
    | some t => simp [Json.valueOr, h4, ht, Json.getString]
  simp [decodeUpdate, Json.index_of_find h1, Json.index_of_find h2, Json.index_of_find h3,
    Json.getString, stodEval, hp, hq, hv]

/-! ## The message handler: the loops -/

/-- The inner loop applies, in order, the calls of the items that decode, and goes on with
the rest of the list. -/
theorem applyUpdates_append_encoded
    (upd : CoinbaseOrderBook → String → ℚ → ℚ → String → Nat → CoinbaseOrderBook)
    (stod : String → Option ℚ) (now : Nat) {ups : List WireUpdate} {items : List Json}
    (h : List.Forall₂ WireUpdate.Encodes ups items)
    (hu : ∀ u ∈ ups, u.Convertible stod) (rest : List Json) (b : CoinbaseOrderBook) :
    applyUpdates upd stod now (items ++ rest) b =
      applyUpdates upd stod now rest
        ((ups.map (WireUpdate.call stod now)).foldl
          (fun b c => upd b c.side c.price c.quantity c.timestamp c.now) b) := by
  induction h generalizing b with
  | nil => rfl
  | @cons u item ups items hhead _ ih =>
    have hd := decodeUpdate_of_encodes hhead (hu u (List.mem_cons_self _ _))
    simp only [List.cons_append, applyUpdates, hd, List.map_cons, List.foldl_cons]
    exact ih (fun v hv => hu v (List.mem_cons_of_mem _ hv)) _

theorem applyUpdates_encoded
    (upd : CoinbaseOrderBook → String → ℚ → ℚ → String → Nat → CoinbaseOrderBook)
    (stod : String → Option ℚ) (now : Nat) {ups : List WireUpdate} {items : List Json}
    (h : List.Forall₂ WireUpdate.Encodes ups items)
    (hu : ∀ u ∈ ups, u.Convertible stod) (b : CoinbaseOrderBook) :
    applyUpdates upd stod now items b =
      Run.normal
        ((ups.map (WireUpdate.call stod now)).foldl
          (fun b c => upd b c.side c.price c.quantity c.timestamp c.now) b) := by
  have := applyUpdates_append_encoded upd stod now h hu [] b
  simpa [applyUpdates] using this

theorem applyUpdates_encoded_then_thrown
    (upd : CoinbaseOrderBook → String → ℚ → ℚ → String → Nat → CoinbaseOrderBook)
    (stod : String → Option ℚ) (now : Nat) {ups : List WireUpdate} {items : List Json}
    (h : List.Forall₂ WireUpdate.Encodes ups items)
    (hu : ∀ u ∈ ups, u.Convertible stod) {bad : Json} {e : DecodeException}
    (hbad : decodeUpdate stod bad = Eval.thrown e) (rest : List Json)
    (b : CoinbaseOrderBook) :
    applyUpdates upd stod now (items ++ bad :: rest) b =
      Run.thrown
        ((ups.map (WireUpdate.call stod now)).foldl
          (fun b c => upd b c.side c.price c.quantity c.timestamp c.now) b) e := by
  rw [applyUpdates_append_encoded upd stod now h hu]
  simp only [applyUpdates, hbad]

theorem isData_iff (e : WireEvent) :
    e.isData = true ↔ e.type = "snapshot" ∨ e.type = "update" := by
  simp [WireEvent.isData]

namespace CoinbaseWebSocketClient

/-- An event with one of the two data tags runs the inner loop over its `updates`. -/
theorem handleEvent_data (stod : String → Option ℚ) (now : Nat) {event updates : Json}
    {tag : String} (htype : event.find "type" = some (Json.string tag))
    (htag : tag = "snapshot" ∨ tag = "update")
    (hupd : event.find "updates" = some updates) (b : CoinbaseOrderBook) :
    handleEvent stod now event b =
      applyUpdates CoinbaseOrderBook.updateLevel stod now updates.elements b := by
  have hc := Json.contains_of_find htype
  have hm := Json.member_of_find htype
  have hi := Json.index_of_find hupd
  rcases htag with h | h
  · have hne : ¬ ("snapshot" : String) = "update" := by decide
    simp [handleEvent, hc, hm, hi, Json.isString, h, hne]
  · simp [handleEvent, hc, hm, hi, Json.isString, h]

/-- An event whose `type` is absent, is not a string, or is neither data tag does nothing. -/
theorem handleEvent_other (stod : String → Option ℚ) (now : Nat) {event : Json}
    (h : ¬ ((event.member "type").isString "update" = true) ∧
      ¬ ((event.member "type").isString "snapshot" = true) ∨ event.contains "type" = false)
    (b : CoinbaseOrderBook) :
    handleEvent stod now event b = Run.normal b := by
  rcases h with ⟨h1, h2⟩ | h
  · simp [handleEvent, h1, h2]
  · simp [handleEvent, h]

end CoinbaseWebSocketClient

namespace MainCpp

theorem handleEvent_data_main (stod : String → Option ℚ) (now : Nat) {event updates : Json}
    {tag : String} (htype : event.find "type" = some (Json.string tag))
    (htag : tag = "snapshot" ∨ tag = "update")
    (hupd : event.find "updates" = some updates) (b : CoinbaseOrderBook) :
    handleEvent stod now event b =
      applyUpdates updateLevel stod now updates.elements b := by
  have hc := Json.contains_of_find htype
  have hm := Json.member_of_find htype
  have hc2 := Json.contains_of_find hupd
  have hm2 := Json.member_of_find hupd
  rcases htag with h | h
  · have hne : ¬ ("snapshot" : String) = "update" := by decide
    simp [handleEvent, hc, hm, hc2, hm2, Json.isString, h, hne]
  · simp [handleEvent, hc, hm, hc2, hm2, Json.isString, h]

theorem handleEvent_other_main (stod : String → Option ℚ) (now : Nat) {event : Json}
    (h : ¬ ((event.member "type").isString "update" = true) ∧
      ¬ ((event.member "type").isString "snapshot" = true) ∨ event.contains "type" = false)
    (b : CoinbaseOrderBook) :
    handleEvent stod now event b = Run.normal b := by
  rcases h with ⟨h1, h2⟩ | h
  · simp [handleEvent, h1, h2]
  · simp [handleEvent, h]

end MainCpp

/-! ## The message handler: well-formed messages -/

theorem encodes_toJson (u : WireUpdate) : u.Encodes u.toJson := by
  cases ht : u.event_time with
  | none => simp [WireUpdate.Encodes, WireUpdate.toJson, Json.find, List.lookup, ht]
  | some t => simp [WireUpdate.Encodes, WireUpdate.toJson, Json.find, List.lookup, ht]

theorem forall₂_encodes_toJson (ups : List WireUpdate) :
    List.Forall₂ WireUpdate.Encodes ups (ups.map WireUpdate.toJson) := by
  induction ups with
  | nil => exact List.Forall₂.nil
  | cons u rest ih => exact List.Forall₂.cons (encodes_toJson u) ih

theorem encodes_event_toJson (e : WireEvent) : e.Encodes e.toJson := by
  refine ⟨by simp [WireEvent.toJson, Json.find, List.lookup], _, ?_,
    forall₂_encodes_toJson e.updates⟩
  simp [WireEvent.toJson, Json.find, List.lookup]

theorem forall₂_encodes_event_toJson (events : List WireEvent) :
    List.Forall₂ WireEvent.Encodes events (events.map WireEvent.toJson) := by
  induction events with
  | nil => exact List.Forall₂.nil
  | cons e rest ih => exact List.Forall₂.cons (encodes_event_toJson e) ih

theorem encodesMessage_wireMessage (events : List WireEvent) :
    EncodesMessage events (wireMessage events) := by
  refine ⟨by simp [wireMessage, Json.find, List.lookup], _, ?_,
    forall₂_encodes_event_toJson events⟩
  simp [wireMessage, Json.find, List.lookup]

theorem wireCalls_sameUpToTag (stod : String → Option ℚ) (now : Nat)
    {events1 events2 : List WireEvent} (h : SameUpToTag events1 events2) :
    wireCalls stod now events2 = wireCalls stod now events1 := by
  unfold SameUpToTag at h
  induction h with
  | nil => rfl
  | @cons e1 e2 l1 l2 hhead _ ih =>
    obtain ⟨hupd, htag⟩ := hhead
    have hdata : e2.isData = e1.isData := by
      rcases htag with h1 | ⟨h1, h2⟩
      · simp [WireEvent.isData, h1]
      · rw [h1, h2]
    simp only [wireCalls, hdata, hupd, ih]

/-- The loop over the events applies, in order, the calls of the events that are encoded as
the wire schema says, and goes on with the rest of the list. -/
theorem forEvents_append_encoded (body : Json → CoinbaseOrderBook → Run)
    (upd : CoinbaseOrderBook → String → ℚ → ℚ → String → Nat → CoinbaseOrderBook)
    (stod : String → Option ℚ) (now : Nat)
    (hdata : ∀ (event updates : Json) (tag : String) (b : CoinbaseOrderBook),
      event.find "type" = some (Json.string tag) → (tag = "snapshot" ∨ tag = "update") →
      event.find "updates" = some updates →
      body event b = applyUpdates upd stod now updates.elements b)
    (hother : ∀ (event : Json) (b : CoinbaseOrderBook),
      (¬ ((event.member "type").isString "update" = true) ∧
        ¬ ((event.member "type").isString "snapshot" = true) ∨
        event.contains "type" = false) →
      body event b = Run.normal b)
    {events : List WireEvent} {items : List Json}
    (h : List.Forall₂ WireEvent.Encodes events items)
    (hu : ∀ e ∈ events, e.isData = true → ∀ u ∈ e.updates, u.Convertible stod)
    (rest : List Json) (b : CoinbaseOrderBook) :
    forEvents body (items ++ rest) b =
      forEvents body rest
        ((wireCalls stod now events).foldl
          (fun b c => upd b c.side c.price c.quantity c.timestamp c.now) b) := by
  induction h generalizing b with
  | nil => rfl
  | @cons e item events items hhead _ ih =>
    obtain ⟨htype, ups, hupd, hitems⟩ := hhead
    have hrest := ih (fun v hv => hu v (List.mem_cons_of_mem _ hv))
    by_cases hd : e.isData = true
    · have hbody : body item b = Run.normal
          ((e.updates.map (WireUpdate.call stod now)).foldl
            (fun b c => upd b c.side c.price c.quantity c.timestamp c.now) b) := by
        rw [hdata item (Json.array ups) e.type b htype ((isData_iff e).1 hd) hupd]
        exact applyUpdates_encoded upd stod now hitems (hu e (List.mem_cons_self _ _) hd) b
      simp only [List.cons_append, forEvents, hbody, wireCalls, hd, if_true, List.foldl_append]
      exact hrest _
    · have hnot : ¬ (e.type = "snapshot" ∨ e.type = "update") := fun hx =>
        hd ((isData_iff e).2 hx)
      have hbody : body item b = Run.normal b := by
        apply hother
        left
        rw [Json.member_of_find htype]
        simp only [Json.isString, decide_eq_true_eq]
        exact ⟨fun hx => hnot (Or.inr hx), fun hx => hnot (Or.inl hx)⟩
      have hd2 : e.isData = false := by simpa using hd
      simp only [List.cons_append, forEvents, hbody, wireCalls, hd2, Bool.false_eq_true,
        if_false, List.nil_append]
      exact hrest _

namespace CoinbaseWebSocketClient

theorem handleMessage_of_events (stod : String → Option ℚ) (b : CoinbaseOrderBook)
    (now : Nat) {j events : Json}
    (hchannel : j.find "channel" = some (Json.string "l2_data"))
    (hevents : j.find "events" = some events) :
    handleMessage stod b (some j) now
      = (forEvents (handleEvent stod now) events.elements b).caught := by
  simp [handleMessage, Json.contains_of_find hchannel, Json.member_of_find hchannel,
    Json.contains_of_find hevents, Json.member_of_find hevents, Json.isString]

theorem handleMessage_encoded (stod : String → Option ℚ) (b : CoinbaseOrderBook) (now : Nat)
    {events : List WireEvent} {j : Json} (hj : EncodesMessage events j)
    (hnum : ∀ e ∈ events, e.isData = true → ∀ u ∈ e.updates, u.Convertible stod) :
    handleMessage stod b (some j) now
      = some (Handled.mk (b.replay (wireCalls stod now events)) []) := by
  obtain ⟨hchannel, items, hevents, hitems⟩ := hj
  rw [handleMessage_of_events stod b now hchannel hevents]
  have h := forEvents_append_encoded (handleEvent stod now) CoinbaseOrderBook.updateLevel
    stod now (fun event updates tag b1 h1 h2 h3 => handleEvent_data stod now h1 h2 h3 b1)
    (fun event b1 h1 => handleEvent_other stod now h1 b1) hitems hnum [] b
  rw [List.append_nil] at h
  simp only [Json.elements, h, forEvents, Run.caught]
  rfl

end CoinbaseWebSocketClient

namespace MainCpp

theorem handleMessage_of_events_main (stod : String → Option ℚ) (b : CoinbaseOrderBook)
    (now : Nat) {j events : Json}
    (hchannel : j.find "channel" = some (Json.string "l2_data"))
    (hevents : j.find "events" = some events) :
    handleMessage stod b (some j) now
      = (forEvents (handleEvent stod now) events.elements b).caught := by
  simp [handleMessage, Json.contains_of_find hchannel, Json.member_of_find hchannel,
    Json.contains_of_find hevents, Json.member_of_find hevents, Json.isString]

theorem handleMessage_encoded_main (stod : String → Option ℚ) (b : CoinbaseOrderBook)
    (now : Nat) {events : List WireEvent} {j : Json} (hj : EncodesMessage events j)
    (hnum : ∀ e ∈ events, e.isData = true → ∀ u ∈ e.updates, u.Convertible stod) :
    handleMessage stod b (some j) now
      = some (Handled.mk (replay b (wireCalls stod now events)) []) := by
  obtain ⟨hchannel, items, hevents, hitems⟩ := hj
  rw [handleMessage_of_events_main stod b now hchannel hevents]
  have h := forEvents_append_encoded (handleEvent stod now) updateLevel
    stod now (fun event updates tag b1 h1 h2 h3 => handleEvent_data_main stod now h1 h2 h3 b1)
    (fun event b1 h1 => handleEvent_other_main stod now h1 b1) hitems hnum [] b
  rw [List.append_nil] at h
  simp only [Json.elements, h, forEvents, Run.caught]
  rfl

end MainCpp

theorem convertible_sameUpToTag {stod : String → Option ℚ} {events1 events2 : List WireEvent}
    (h : SameUpToTag events1 events2)
    (hnum : ∀ e ∈ events1, e.isData = true → ∀ u ∈ e.updates, u.Convertible stod) :
    ∀ e ∈ events2, e.isData = true → ∀ u ∈ e.updates, u.Convertible stod := by
  unfold SameUpToTag at h
  induction h with
  | nil => intro e he; simp at he
  | @cons e1 e2 l1 l2 hhead _ ih =>
    obtain ⟨hupd, htag⟩ := hhead
    intro e he hd u hu
    rcases List.mem_cons.1 he with heq | hin
    · subst heq
      have hd1 : e1.isData = true := by
        rcases htag with h1 | ⟨h1, _⟩
        · simpa [WireEvent.isData, h1] using hd
        · exact h1
      rw [hupd] at hu
      exact hnum e1 (List.mem_cons_self _ _) hd1 u hu
    · exact ih (fun v hv => hnum v (List.mem_cons_of_mem _ hv)) e hin hd u hu

namespace CoinbaseWebSocketClient

/-- C15: for every message of the level-2 data channel that carries a list of events as the
wire schema says, with numerals that `std::stod` converts in its snapshot and update
events, `handleMessage` reports nothing and leaves the book that results from folding
`updateLevel(side, parsed price_level, parsed new_quantity, event_time or "")` over the update
items of its snapshot and update events, in document order.  A second message with the same
events, except that any of them carries the other of the two tags, leaves the same book.
Both hold for src/src/WebSocketClient.cpp and for src/main.cpp, each with its own
`updateLevel`. -/
theorem handleMessage_wellFormed (stod : String → Option ℚ) (b : CoinbaseOrderBook)
    (now : Nat) (events events2 : List WireEvent) (j j2 : Json)
    (hj : EncodesMessage events j)
    (hnum : ∀ e ∈ events, e.isData = true → ∀ u ∈ e.updates, u.Convertible stod)
    (hj2 : EncodesMessage events2 j2) (hsame : SameUpToTag events events2) :
    handleMessage stod b (some j) now
      = some (Handled.mk (b.replay (wireCalls stod now events)) []) ∧
    handleMessage stod b (some j2) now = handleMessage stod b (some j) now ∧
    MainCpp.handleMessage stod b (some j) now
      = some (Handled.mk (MainCpp.replay b (wireCalls stod now events)) []) ∧
    MainCpp.handleMessage stod b (some j2) now = MainCpp.handleMessage stod b (some j) now := by
  have hnum2 := convertible_sameUpToTag hsame hnum
  have hcalls := wireCalls_sameUpToTag stod now hsame
  refine ⟨handleMessage_encoded stod b now hj hnum, ?_,
    MainCpp.handleMessage_encoded_main stod b now hj hnum, ?_⟩
  · rw [handleMessage_encoded stod b now hj2 hnum2, handleMessage_encoded stod b now hj hnum,
      hcalls]
  · rw [MainCpp.handleMessage_encoded_main stod b now hj2 hnum2,
      MainCpp.handleMessage_encoded_main stod b now hj hnum, hcalls]

end CoinbaseWebSocketClient

theorem sampleEvents_convertible :
    ∀ e ∈ sampleEvents, e.isData = true → ∀ u ∈ e.updates, u.Convertible sampleStod := by
  intro e he _ u hu
  simp only [sampleEvents, List.mem_cons, List.mem_singleton, List.not_mem_nil, or_false] at he
  rcases he with h | h
  · rw [h] at hu
    simp only [List.mem_singleton] at hu
    rw [hu]
    simp [WireUpdate.Convertible, sampleStod]
  · rw [h] at hu
    simp only [List.mem_singleton] at hu
    rw [hu]
    simp [WireUpdate.Convertible, sampleStod]

theorem sampleEvents_sameUpToTag : SameUpToTag sampleEvents sampleEventsRetagged := by
  unfold SameUpToTag sampleEvents sampleEventsRetagged
  refine List.Forall₂.cons ⟨rfl, Or.inr ?_⟩ (List.Forall₂.cons ⟨rfl, Or.inr ?_⟩ List.Forall₂.nil)
  · simp [WireEvent.isData]
  · simp [WireEvent.isData]

namespace CoinbaseWebSocketClient

/-- Instance of C15: the sample message and the same message with the two tags exchanged. -/
theorem handleMessage_wellFormed_witness :
    EncodesMessage sampleEvents (wireMessage sampleEvents) ∧
    (∀ e ∈ sampleEvents, e.isData = true → ∀ u ∈ e.updates, u.Convertible sampleStod) ∧
    EncodesMessage sampleEventsRetagged (wireMessage sampleEventsRetagged) ∧
    SameUpToTag sampleEvents sampleEventsRetagged ∧
    (handleMessage sampleStod (CoinbaseOrderBook.new "BTC-USD" 0)
        (some (wireMessage sampleEvents)) 5
      = some (Handled.mk
          ((CoinbaseOrderBook.new "BTC-USD" 0).replay (wireCalls sampleStod 5 sampleEvents))
          []) ∧
    handleMessage sampleStod (CoinbaseOrderBook.new "BTC-USD" 0)
        (some (wireMessage sampleEventsRetagged)) 5
      = handleMessage sampleStod (CoinbaseOrderBook.new "BTC-USD" 0)
        (some (wireMessage sampleEvents)) 5 ∧
    MainCpp.handleMessage sampleStod (CoinbaseOrderBook.new "BTC-USD" 0)
        (some (wireMessage sampleEvents)) 5
      = some (Handled.mk
          (MainCpp.replay (CoinbaseOrderBook.new "BTC-USD" 0)
            (wireCalls sampleStod 5 sampleEvents))
          []) ∧
    MainCpp.handleMessage sampleStod (CoinbaseOrderBook.new "BTC-USD" 0)
        (some (wireMessage sampleEventsRetagged)) 5
      = MainCpp.handleMessage sampleStod (CoinbaseOrderBook.new "BTC-USD" 0)
        (some (wireMessage sampleEvents)) 5) :=
  ⟨encodesMessage_wireMessage sampleEvents, sampleEvents_convertible,
    encodesMessage_wireMessage sampleEventsRetagged, sampleEvents_sameUpToTag,
    handleMessage_wellFormed sampleStod (CoinbaseOrderBook.new "BTC-USD" 0) 5 sampleEvents
      sampleEventsRetagged (wireMessage sampleEvents) (wireMessage sampleEventsRetagged)
      (encodesMessage_wireMessage sampleEvents) sampleEvents_convertible
      (encodesMessage_wireMessage sampleEventsRetagged) sampleEvents_sameUpToTag⟩

end CoinbaseWebSocketClient

/-! ## The message handler: decode failures -/

theorem caught_reported_length {r : Run} {h : Handled} (hr : r.caught = some h) :
    h.reported.length ≤ 1 := by
  cases r with
  | normal b =>
    simp only [Run.caught, Option.some.injEq] at hr
    rw [← hr]
    exact Nat.zero_le _
  | thrown b e =>
    simp only [Run.caught, Option.some.injEq] at hr
    rw [← hr]
    exact Nat.le_refl _
  | undefined => simp [Run.caught] at hr

/-- The loop over the events, after events that are encoded as the wire schema says, at a data
event whose items decode up to one whose decoding throws: the calls of the events and of the
items before the failing one have been applied, and the exception leaves the loop. -/
theorem forEvents_failure_at_item (body : Json → CoinbaseOrderBook → Run)
    (upd : CoinbaseOrderBook → String → ℚ → ℚ → String → Nat → CoinbaseOrderBook)
    (stod : String → Option ℚ) (now : Nat)
    (hdata : ∀ (event updates : Json) (tag : String) (b : CoinbaseOrderBook),
      event.find "type" = some (Json.string tag) → (tag = "snapshot" ∨ tag = "update") →
      event.find "updates" = some updates →
      body event b = applyUpdates upd stod now updates.elements b)
    (hother : ∀ (event : Json) (b : CoinbaseOrderBook),
      (¬ ((event.member "type").isString "update" = true) ∧
        ¬ ((event.member "type").isString "snapshot" = true) ∨
        event.contains "type" = false) →
      body event b = Run.normal b)
    {events : List WireEvent} {pre post : List Json} {event updates : Json} {tag : String}
    {ups : List WireUpdate} {good rest : List Json} {bad : Json} {e : DecodeException}
    (hpre : List.Forall₂ WireEvent.Encodes events pre)
    (hnum : ∀ ev ∈ events, ev.isData = true → ∀ u ∈ ev.updates, u.Convertible stod)
    (htype : event.find "type" = some (Json.string tag))
    (htag : tag = "snapshot" ∨ tag = "update")
    (hupdates : event.find "updates" = some updates)
    (hitems : updates.elements = good ++ bad :: rest)
    (hgood : List.Forall₂ WireUpdate.Encodes ups good)
    (hconv : ∀ u ∈ ups, u.Convertible stod)
    (hbad : decodeUpdate stod bad = Eval.thrown e) (b : CoinbaseOrderBook) :
    forEvents body (pre ++ event :: post) b =
      Run.thrown
        ((wireCalls stod now events ++ ups.map (WireUpdate.call stod now)).foldl
          (fun b c => upd b c.side c.price c.quantity c.timestamp c.now) b) e := by
  rw [forEvents_append_encoded body upd stod now hdata hother hpre hnum]
  simp only [forEvents, hdata event updates tag _ htype htag hupdates, hitems,
    applyUpdates_encoded_then_thrown upd stod now hgood hconv hbad, List.foldl_append]

namespace CoinbaseWebSocketClient

theorem handleMessage_failure_at_item (stod : String → Option ℚ) (b : CoinbaseOrderBook)
    (now : Nat) {j eventsJson : Json}
    {events : List WireEvent} {pre post : List Json} {event updates : Json} {tag : String}
    {ups : List WireUpdate} {good rest : List Json} {bad : Json} {e : DecodeException}
    (hchannel : j.find "channel" = some (Json.string "l2_data"))
    (hevents : j.find "events" = some eventsJson)
    (helems : eventsJson.elements = pre ++ event :: post)
    (hpre : List.Forall₂ WireEvent.Encodes events pre)
    (hnum : ∀ ev ∈ events, ev.isData = true → ∀ u ∈ ev.updates, u.Convertible stod)
    (htype : event.find "type" = some (Json.string tag))
    (htag : tag = "snapshot" ∨ tag = "update")
    (hupdates : event.find "updates" = some updates)
    (hitems : updates.elements = good ++ bad :: rest)
    (hgood : List.Forall₂ WireUpdate.Encodes ups good)
    (hconv : ∀ u ∈ ups, u.Convertible stod)
    (hbad : decodeUpdate stod bad = Eval.thrown e) :
    handleMessage stod b (some j) now =
      some (Handled.mk
        (b.replay (wireCalls stod now events ++ ups.map (WireUpdate.call stod now))) [e]) := by
  rw [handleMessage_of_events stod b now hchannel hevents, helems,
    forEvents_failure_at_item (handleEvent stod now) CoinbaseOrderBook.updateLevel stod now
      (fun event updates tag b1 h1 h2 h3 => handleEvent_data stod now h1 h2 h3 b1)
      (fun event b1 h1 => handleEvent_other stod now h1 b1)
      hpre hnum htype htag hupdates hitems hgood hconv hbad]
  rfl

end CoinbaseWebSocketClient

namespace MainCpp

theorem handleMessage_failure_at_item_main (stod : String → Option ℚ)
    (b : CoinbaseOrderBook) (now : Nat) {j eventsJson : Json}
    {events : List WireEvent} {pre post : List Json} {event updates : Json} {tag : String}
    {ups : List WireUpdate} {good rest : List Json} {bad : Json} {e : DecodeException}
    (hchannel : j.find "channel" = some (Json.string "l2_data"))
    (hevents : j.find "events" = some eventsJson)
    (helems : eventsJson.elements = pre ++ event :: post)
    (hpre : List.Forall₂ WireEvent.Encodes events pre)
    (hnum : ∀ ev ∈ events, ev.isData = true → ∀ u ∈ ev.updates, u.Convertible stod)
    (htype : event.find "type" = some (Json.string tag))
    (htag : tag = "snapshot" ∨ tag = "update")
    (hupdates : event.find "updates" = some updates)
    (hitems : updates.elements = good ++ bad :: rest)
    (hgood : List.Forall₂ WireUpdate.Encodes ups good)
    (hconv : ∀ u ∈ ups, u.Convertible stod)
    (hbad : decodeUpdate stod bad = Eval.thrown e) :
    handleMessage stod b (some j) now =
      some (Handled.mk
        (replay b (wireCalls stod now events ++ ups.map (WireUpdate.call stod now))) [e]) := by
  rw [handleMessage_of_events_main stod b now hchannel hevents, helems,
    forEvents_failure_at_item (handleEvent stod now) updateLevel stod now
      (fun event updates tag b1 h1 h2 h3 => handleEvent_data_main stod now h1 h2 h3 b1)
      (fun event b1 h1 => handleEvent_other_main stod now h1 b1)
      hpre hnum htype htag hupdates hitems hgood hconv hbad]
  rfl

end MainCpp

theorem halfMalformed_channel :
    halfMalformedMessage.find "channel" = some (Json.string "l2_data") := by
  simp [halfMalformedMessage, Json.find, List.lookup]

theorem halfMalformed_events :
    halfMalformedMessage.find "events" = some (Json.array [halfMalformedEvent]) := by
  simp [halfMalformedMessage, Json.find, List.lookup]

theorem halfMalformed_type :
    halfMalformedEvent.find "type" = some (Json.string "update") := by
  simp [halfMalformedEvent, Json.find, List.lookup]

theorem halfMalformed_updates :
    halfMalformedEvent.find "updates" = some halfMalformedUpdates := by
  simp [halfMalformedEvent, Json.find, List.lookup]

theorem sampleBid_convertible : ∀ u ∈ [sampleBid], u.Convertible sampleStod := by
  intro u hu
  simp only [List.mem_singleton] at hu
  rw [hu]
  simp [WireUpdate.Convertible, sampleStod, sampleBid]

theorem decodeUpdate_malformedItem :
    decodeUpdate sampleStod malformedItem = Eval.thrown DecodeException.type_error := by
  simp [decodeUpdate, malformedItem, Json.index, List.lookup, Json.getString]

theorem sampleBid_book :
    (CoinbaseOrderBook.new "BTC-USD" 0).replay
        (wireCalls sampleStod 5 [] ++ [sampleBid].map (WireUpdate.call sampleStod 5))
      = CoinbaseOrderBook.mk [(100, OrderBookLevel.mk 100 2 "")] [] "BTC-USD" 5 := by
  simp [CoinbaseOrderBook.replay, CoinbaseOrderBook.applyCall, CoinbaseOrderBook.updateLevel,
    CoinbaseOrderBook.new, wireCalls, WireUpdate.call, sampleBid, sampleStod, LevelMap.assign]
  norm_num

theorem sampleBid_book_main :
    MainCpp.replay (CoinbaseOrderBook.new "BTC-USD" 0)
        (wireCalls sampleStod 5 [] ++ [sampleBid].map (WireUpdate.call sampleStod 5))
      = CoinbaseOrderBook.mk [(100, OrderBookLevel.mk 100 2 "")] [] "BTC-USD" 5 := by
  simp [MainCpp.replay, MainCpp.applyCall, MainCpp.updateLevel,
    CoinbaseOrderBook.new, wireCalls, WireUpdate.call, sampleBid, sampleStod, LevelMap.assign]

namespace CoinbaseWebSocketClient

/-- C16 as stated fails: the half-malformed message has a well-formed first item (a bid at
100.00 for 2.0) and a second item whose `price_level` is not a text.  Decoding the second
item throws, the failure is reported, and `handleMessage` returns with the first item
applied: the bid side, empty before the call, holds the level at 100 after it, and
`getBidLevels()` goes from 0 to 1.  The handler of src/main.cpp does the same. -/
theorem handleMessage_not_atomic_counterexample :
    decodeUpdate sampleStod malformedItem = Eval.thrown DecodeException.type_error ∧
    handleMessage sampleStod (CoinbaseOrderBook.new "BTC-USD" 0) (some halfMalformedMessage) 5
      = some (Handled.mk
          (CoinbaseOrderBook.mk [(100, OrderBookLevel.mk 100 2 "")] [] "BTC-USD" 5)
          [DecodeException.type_error]) ∧
    (CoinbaseOrderBook.new "BTC-USD" 0).bids = [] ∧
    (CoinbaseOrderBook.new "BTC-USD" 0).getBidLevels = 0 ∧
    (CoinbaseOrderBook.mk [(100, OrderBookLevel.mk 100 2 "")] [] "BTC-USD" 5).bids
      ≠ (CoinbaseOrderBook.new "BTC-USD" 0).bids ∧
    (CoinbaseOrderBook.mk [(100, OrderBookLevel.mk 100 2 "")] [] "BTC-USD" 5).getBidLevels
      = 1 ∧
    MainCpp.handleMessage sampleStod (CoinbaseOrderBook.new "BTC-USD" 0)
        (some halfMalformedMessage) 5
      = some (Handled.mk
          (CoinbaseOrderBook.mk [(100, OrderBookLevel.mk 100 2 "")] [] "BTC-USD" 5)
          [DecodeException.type_error]) := by
  refine ⟨decodeUpdate_malformedItem, ?_, rfl, rfl, ?_, rfl, ?_⟩
  · rw [← sampleBid_book]
    exact @handleMessage_failure_at_item sampleStod (CoinbaseOrderBook.new "BTC-USD" 0) 5
      halfMalformedMessage (Json.array [halfMalformedEvent]) [] [] [] halfMalformedEvent
      halfMalformedUpdates "update" [sampleBid] [sampleBid.toJson] [] malformedItem
      DecodeException.type_error halfMalformed_channel halfMalformed_events rfl
      List.Forall₂.nil (fun ev hev => by simp at hev) halfMalformed_type (Or.inr rfl)
      halfMalformed_updates rfl (forall₂_encodes_toJson [sampleBid]) sampleBid_convertible
      decodeUpdate_malformedItem
  · simp [CoinbaseOrderBook.new]
  · rw [← sampleBid_book_main]
    exact @MainCpp.handleMessage_failure_at_item_main sampleStod
      (CoinbaseOrderBook.new "BTC-USD" 0) 5
      halfMalformedMessage (Json.array [halfMalformedEvent]) [] [] [] halfMalformedEvent
      halfMalformedUpdates "update" [sampleBid] [sampleBid.toJson] [] malformedItem
      DecodeException.type_error halfMalformed_channel halfMalformed_events rfl
      List.Forall₂.nil (fun ev hev => by simp at hev) halfMalformed_type (Or.inr rfl)
      halfMalformed_updates rfl (forall₂_encodes_toJson [sampleBid]) sampleBid_convertible
      decodeUpdate_malformedItem

end CoinbaseWebSocketClient

namespace CoinbaseWebSocketClient

theorem handleMessage_reported_length (stod : String → Option ℚ) (b : CoinbaseOrderBook)
    (now : Nat) (parsed : Option Json) (h : Handled)
    (hh : handleMessage stod b parsed now = some h) : h.reported.length ≤ 1 := by
  cases parsed with
  | none =>
    simp only [handleMessage, Option.some.injEq] at hh
    rw [← hh]
    exact Nat.le_refl _
  | some j =>
    simp only [handleMessage] at hh
    split_ifs at hh
    · exact caught_reported_length hh
    · simp only [Option.some.injEq] at hh
      rw [← hh]
      exact Nat.zero_le _
    · simp only [Option.some.injEq] at hh
      rw [← hh]
      exact Nat.zero_le _

/-- C16, amended: a decode failure that throws is caught inside `handleMessage` and reported
once, and handling stops where it occurs.  When `json::parse` throws, the book is unchanged.
When the decoding of an update item throws, in a snapshot or update event of a message of the
level-2 data channel, and the events before that event and the items before that item are
as the wire schema says, the book after the call is the book before it with exactly the
update items that precede the failing item applied, in document order; the failing item and
whatever follows it are not applied.  The book is therefore unchanged when no item precedes
the failing one.  The same holds for src/main.cpp with its own `updateLevel`. -/
theorem handleMessage_decode_failure (stod : String → Option ℚ) (b : CoinbaseOrderBook)
    (now : Nat) (j eventsJson : Json) (events : List WireEvent) (pre post : List Json)
    (event updates : Json) (tag : String) (ups : List WireUpdate) (good rest : List Json)
    (bad : Json) (e : DecodeException)
    (hchannel : j.find "channel" = some (Json.string "l2_data"))
    (hevents : j.find "events" = some eventsJson)
    (helems : eventsJson.elements = pre ++ event :: post)
    (hpre : List.Forall₂ WireEvent.Encodes events pre)
    (hnum : ∀ ev ∈ events, ev.isData = true → ∀ u ∈ ev.updates, u.Convertible stod)
    (htype : event.find "type" = some (Json.string tag))
    (htag : tag = "snapshot" ∨ tag = "update")
    (hupdates : event.find "updates" = some updates)
    (hitems : updates.elements = good ++ bad :: rest)
    (hgood : List.Forall₂ WireUpdate.Encodes ups good)
    (hconv : ∀ u ∈ ups, u.Convertible stod)
    (hbad : decodeUpdate stod bad = Eval.thrown e) :
    handleMessage stod b (some j) now =
      some (Handled.mk
        (b.replay (wireCalls stod now events ++ ups.map (WireUpdate.call stod now))) [e]) ∧
    (wireCalls stod now events = [] → ups = [] →
      handleMessage stod b (some j) now = some (Handled.mk b [e])) ∧
    handleMessage stod b none now = some (Handled.mk b [DecodeException.parse_error]) ∧
    (∀ parsed h, handleMessage stod b parsed now = some h → h.reported.length ≤ 1) ∧
    MainCpp.handleMessage stod b (some j) now =
      some (Handled.mk
        (MainCpp.replay b (wireCalls stod now events ++ ups.map (WireUpdate.call stod now)))
        [e]) ∧
    MainCpp.handleMessage stod b none now
      = some (Handled.mk b [DecodeException.parse_error]) := by
  have hmain := handleMessage_failure_at_item stod b now hchannel hevents helems hpre hnum
    htype htag hupdates hitems hgood hconv hbad
  refine ⟨hmain, ?_, rfl, handleMessage_reported_length stod b now,
    MainCpp.handleMessage_failure_at_item_main stod b now hchannel hevents helems hpre hnum
      htype htag hupdates hitems hgood hconv hbad, rfl⟩
  intro h1 h2
  rw [hmain, h1, h2]
  rfl

/-- Instance of the amended C16 on the half-malformed message. -/
theorem handleMessage_decode_failure_witness :
    halfMalformedMessage.find "channel" = some (Json.string "l2_data") ∧
    halfMalformedMessage.find "events" = some (Json.array [halfMalformedEvent]) ∧
    (Json.array [halfMalformedEvent]).elements = [] ++ halfMalformedEvent :: [] ∧
    List.Forall₂ WireEvent.Encodes [] [] ∧
    (∀ ev ∈ ([] : List WireEvent), ev.isData = true →
      ∀ u ∈ ev.updates, u.Convertible sampleStod) ∧
    halfMalformedEvent.find "type" = some (Json.string "update") ∧
    ("update" = "snapshot" ∨ "update" = "update") ∧
    halfMalformedEvent.find "updates" = some halfMalformedUpdates ∧
    halfMalformedUpdates.elements = [sampleBid.toJson] ++ malformedItem :: [] ∧
    List.Forall₂ WireUpdate.Encodes [sampleBid] [sampleBid.toJson] ∧
    (∀ u ∈ [sampleBid], u.Convertible sampleStod) ∧
    decodeUpdate sampleStod malformedItem = Eval.thrown DecodeException.type_error ∧
    (handleMessage sampleStod (CoinbaseOrderBook.new "BTC-USD" 0) (some halfMalformedMessage) 5
      = some (Handled.mk
          ((CoinbaseOrderBook.new "BTC-USD" 0).replay
            (wireCalls sampleStod 5 [] ++ [sampleBid].map (WireUpdate.call sampleStod 5)))
          [DecodeException.type_error]) ∧
    (wireCalls sampleStod 5 [] = [] → [sampleBid] = [] →
      handleMessage sampleStod (CoinbaseOrderBook.new "BTC-USD" 0)
          (some halfMalformedMessage) 5
        = some (Handled.mk (CoinbaseOrderBook.new "BTC-USD" 0)
            [DecodeException.type_error])) ∧
    handleMessage sampleStod (CoinbaseOrderBook.new "BTC-USD" 0) none 5
      = some (Handled.mk (CoinbaseOrderBook.new "BTC-USD" 0) [DecodeException.parse_error]) ∧
    (∀ parsed h,
      handleMessage sampleStod (CoinbaseOrderBook.new "BTC-USD" 0) parsed 5 = some h →
      h.reported.length ≤ 1) ∧
    MainCpp.handleMessage sampleStod (CoinbaseOrderBook.new "BTC-USD" 0)
        (some halfMalformedMessage) 5
      = some (Handled.mk
          (MainCpp.replay (CoinbaseOrderBook.new "BTC-USD" 0)
            (wireCalls sampleStod 5 [] ++ [sampleBid].map (WireUpdate.call sampleStod 5)))
          [DecodeException.type_error]) ∧
    MainCpp.handleMessage sampleStod (CoinbaseOrderBook.new "BTC-USD" 0) none 5
      = some (Handled.mk (CoinbaseOrderBook.new "BTC-USD" 0)
          [DecodeException.parse_error])) :=
  ⟨halfMalformed_channel, halfMalformed_events, rfl, List.Forall₂.nil,
    fun ev hev => by simp at hev, halfMalformed_type, Or.inr rfl, halfMalformed_updates, rfl,
    forall₂_encodes_toJson [sampleBid], sampleBid_convertible, decodeUpdate_malformedItem,
    handleMessage_decode_failure sampleStod (CoinbaseOrderBook.new "BTC-USD" 0) 5
      halfMalformedMessage (Json.array [halfMalformedEvent]) [] [] [] halfMalformedEvent
      halfMalformedUpdates "update" [sampleBid] [sampleBid.toJson] [] malformedItem
      DecodeException.type_error halfMalformed_channel halfMalformed_events rfl
      List.Forall₂.nil (fun ev hev => by simp at hev) halfMalformed_type (Or.inr rfl)
      halfMalformed_updates rfl (forall₂_encodes_toJson [sampleBid]) sampleBid_convertible
      decodeUpdate_malformedItem⟩

end CoinbaseWebSocketClient

/-! ## The message handler: content it does not recognise -/

theorem forEvents_skip (body : Json → CoinbaseOrderBook → Run) {event : Json}
    (h : ∀ b, body event b = Run.normal b) (before after : List Json)
    (b : CoinbaseOrderBook) :
    forEvents body (before ++ event :: after) b = forEvents body (before ++ after) b := by
  induction before generalizing b with
  | nil => simp only [List.nil_append, forEvents, h]
  | cons first others ih =>
    simp only [List.cons_append, forEvents]
    cases body first b with
    | normal b1 => exact ih b1
    | thrown b1 e => rfl
    | undefined => rfl

theorem forEvents_all_skipped (body : Json → CoinbaseOrderBook → Run) (events : List Json)
    (h : ∀ event ∈ events, ∀ b, body event b = Run.normal b) (b : CoinbaseOrderBook) :
    forEvents body events b = Run.normal b := by
  induction events with
  | nil => rfl
  | cons first others ih =>
    simp only [forEvents, h first (List.mem_cons_self _ _) b]
    exact ih (fun ev hev => h ev (List.mem_cons_of_mem _ hev))

namespace CoinbaseWebSocketClient

theorem handleEvent_not_data (stod : String → Option ℚ) (now : Nat) {event : Json}
    (h : event.isDataEvent = false) (b : CoinbaseOrderBook) :
    handleEvent stod now event b = Run.normal b := by
  apply handleEvent_other
  by_cases hc : event.contains "type" = true
  · left
    simp only [Json.isDataEvent, hc, Bool.true_and, Bool.or_eq_false_iff] at h
    exact ⟨by simp [h.1], by simp [h.2]⟩
  · right
    simpa using hc

end CoinbaseWebSocketClient

namespace MainCpp

theorem handleEvent_not_data_main (stod : String → Option ℚ) (now : Nat) {event : Json}
    (h : event.isDataEvent = false) (b : CoinbaseOrderBook) :
    handleEvent stod now event b = Run.normal b := by
  apply handleEvent_other_main
  by_cases hc : event.contains "type" = true
  · left
    simp only [Json.isDataEvent, hc, Bool.true_and, Bool.or_eq_false_iff] at h
    exact ⟨by simp [h.1], by simp [h.2]⟩
  · right
    simpa using hc

end MainCpp

namespace CoinbaseWebSocketClient

/-- C17: for every parseable message, `handleMessage` returns with the book as it was and
with nothing reported when the message has no member `channel` or one that is not the
string "l2_data", when it has no member `events`, and when no event of its `events` has a
`type` that is the string "snapshot" or "update".  An event whose `type` is absent or is
neither of the two tags leaves the book as it is, and the outcome of the loop over the events
is the same with and without it.  All of this holds for src/src/WebSocketClient.cpp and for
src/main.cpp. -/
theorem handleMessage_ignores_unrecognised (stod : String → Option ℚ)
    (b : CoinbaseOrderBook) (j : Json) (now : Nat) :
    ((j.contains "channel" = false ∨ (j.member "channel").isString "l2_data" = false) →
      handleMessage stod b (some j) now = some (Handled.mk b []) ∧
      MainCpp.handleMessage stod b (some j) now = some (Handled.mk b [])) ∧
    (j.contains "events" = false →
      handleMessage stod b (some j) now = some (Handled.mk b []) ∧
      MainCpp.handleMessage stod b (some j) now = some (Handled.mk b [])) ∧
    ((∀ event ∈ (j.member "events").elements, event.isDataEvent = false) →
      handleMessage stod b (some j) now = some (Handled.mk b []) ∧
      MainCpp.handleMessage stod b (some j) now = some (Handled.mk b [])) ∧
    (∀ (event : Json) (b1 : CoinbaseOrderBook), event.isDataEvent = false →
      handleEvent stod now event b1 = Run.normal b1 ∧
      MainCpp.handleEvent stod now event b1 = Run.normal b1) ∧
    (∀ (event : Json) (before after : List Json) (b1 : CoinbaseOrderBook),
      event.isDataEvent = false →
      forEvents (handleEvent stod now) (before ++ event :: after) b1
        = forEvents (handleEvent stod now) (before ++ after) b1 ∧
      forEvents (MainCpp.handleEvent stod now) (before ++ event :: after) b1
        = forEvents (MainCpp.handleEvent stod now) (before ++ after) b1) := by
  refine ⟨?_, ?_, ?_, ?_, ?_⟩
  · intro h
    rcases h with h | h
    · simp [handleMessage, MainCpp.handleMessage, h]
    · simp [handleMessage, MainCpp.handleMessage, h]
  · intro h
    simp [handleMessage, MainCpp.handleMessage, h]
  · intro h
    have h1 := forEvents_all_skipped (handleEvent stod now) (j.member "events").elements
      (fun ev hev b1 => handleEvent_not_data stod now (h ev hev) b1) b
    have h2 := forEvents_all_skipped (MainCpp.handleEvent stod now)
      (j.member "events").elements
      (fun ev hev b1 => MainCpp.handleEvent_not_data_main stod now (h ev hev) b1) b
    simp only [handleMessage, MainCpp.handleMessage, h1, h2, Run.caught]
    constructor <;> split_ifs <;> rfl
  · intro event b1 h
    exact ⟨handleEvent_not_data stod now h b1, MainCpp.handleEvent_not_data_main stod now h b1⟩
  · intro event before after b1 h
    exact ⟨forEvents_skip _ (fun b2 => handleEvent_not_data stod now h b2) before after b1,
      forEvents_skip _ (fun b2 => MainCpp.handleEvent_not_data_main stod now h b2)
        before after b1⟩

end CoinbaseWebSocketClient

/-! ## Queries that run while the writer runs -/

namespace CoinbaseOrderBook

theorem tornCalls_take_two (sym : String) (t0 : Nat) :
    (new sym t0).replay (tornCalls.take 2) =
      CoinbaseOrderBook.mk [(100, OrderBookLevel.mk 100 1 "")]
        [(110, OrderBookLevel.mk 110 1 "")] sym 2 := by
  simp [replay, applyCall, updateLevel, new, tornCalls, LevelMap.assign]
  norm_num

theorem tornCalls_take_three (sym : String) (t0 : Nat) :
    (new sym t0).replay (tornCalls.take 3) =
      CoinbaseOrderBook.mk
        [(100, OrderBookLevel.mk 100 1 ""), (105, OrderBookLevel.mk 105 1 "")]
        [(110, OrderBookLevel.mk 110 1 "")] sym 3 := by
  simp [replay, applyCall, updateLevel, new, tornCalls, LevelMap.assign]
  norm_num [LevelMap.assign]

theorem tornCalls_take_four (sym : String) (t0 : Nat) :
    (new sym t0).replay (tornCalls.take 4) =
      CoinbaseOrderBook.mk
        [(100, OrderBookLevel.mk 100 1 ""), (105, OrderBookLevel.mk 105 1 "")]
        [(103, OrderBookLevel.mk 103 1 ""), (110, OrderBookLevel.mk 110 1 "")] sym 4 := by
  simp [replay, applyCall, updateLevel, new, tornCalls, LevelMap.assign]
  norm_num [LevelMap.assign]

theorem tornCalls_spreads (sym : String) (t0 : Nat) (k : Nat) (hk : k ≤ 4) :
    ((new sym t0).replay (tornCalls.take k)).getSpread = 0 ∨
    ((new sym t0).replay (tornCalls.take k)).getSpread = 10 ∨
    ((new sym t0).replay (tornCalls.take k)).getSpread = 5 ∨
    ((new sym t0).replay (tornCalls.take k)).getSpread = -2 := by
  interval_cases k
  · left
    simp [replay, new, tornCalls, getSpread, getBestBid, getBestAsk]
  · left
    simp [replay, applyCall, updateLevel, new, tornCalls, LevelMap.assign, getSpread,
      getBestBid, getBestAsk]
  · right; left
    rw [tornCalls_take_two]
    simp [getSpread, getBestBid, getBestAsk]
    norm_num
  · right; right; left
    rw [tornCalls_take_three]
    simp [getSpread, getBestBid, getBestAsk]
    norm_num
  · right; right; right
    rw [tornCalls_take_four]
    simp [getSpread, getBestBid, getBestAsk]
    norm_num

theorem tornCalls_spreadBps (sym : String) (t0 : Nat) (k : Nat) (hk : k ≤ 4) :
    ((new sym t0).replay (tornCalls.take k)).getSpreadBps = 0 ∨
    ((new sym t0).replay (tornCalls.take k)).getSpreadBps = 20000 / 21 ∨
    ((new sym t0).replay (tornCalls.take k)).getSpreadBps = 20000 / 43 ∨
    ((new sym t0).replay (tornCalls.take k)).getSpreadBps = -2500 / 13 := by
  interval_cases k
  · left
    simp [replay, new, tornCalls, getSpreadBps, getBestBid, getBestAsk]
  · left
    simp [replay, applyCall, updateLevel, new, tornCalls, LevelMap.assign, getSpreadBps,
      getBestBid, getBestAsk]
  · right; left
    rw [tornCalls_take_two]
    simp [getSpreadBps, getBestBid, getBestAsk]
    norm_num
  · right; right; left
    rw [tornCalls_take_three]
    simp [getSpreadBps, getBestBid, getBestAsk]
    norm_num
  · right; right; right
    rw [tornCalls_take_four]
    simp [getSpreadBps, getBestBid, getBestAsk]
    norm_num

/-- C18 evaluated on the code: `getSpread` and `getSpreadBps` do not hold the mutex for their
whole duration but take it once inside `getBestBid()` and once inside `getBestAsk()`.  With
the writer calls bid at 100, ask at 110, bid at 105, ask at 103, a `getSpread` whose
`getBestBid()` runs after the second call and whose `getBestAsk()` runs after the fourth
returns 103 - 100 = 3, and `getSpreadBps` returns 60000/203, while on the book after any
number of completed calls the spread is 0, 10, 5 or -2 and the basis-point spread is 0,
20000/21, 20000/43 or -2500/13: the result is the value of the query on no state of the
book.  When both reads see the same state the result is the value of the query there. -/
theorem getSpread_torn_read :
    (2 ≤ 4 ∧ 4 ≤ tornCalls.length) ∧
    ((new "BTC-USD" 0).replay (tornCalls.take 2)).getBestBid = 100 ∧
    ((new "BTC-USD" 0).replay (tornCalls.take 4)).getBestAsk = 103 ∧
    getSpreadDuring (new "BTC-USD" 0) tornCalls 2 4 = 3 ∧
    (∀ k, k ≤ tornCalls.length →
      ((new "BTC-USD" 0).replay (tornCalls.take k)).getSpread
        ≠ getSpreadDuring (new "BTC-USD" 0) tornCalls 2 4) ∧
    getSpreadBpsDuring (new "BTC-USD" 0) tornCalls 2 4 = 60000 / 203 ∧
    (∀ k, k ≤ tornCalls.length →
      ((new "BTC-USD" 0).replay (tornCalls.take k)).getSpreadBps
        ≠ getSpreadBpsDuring (new "BTC-USD" 0) tornCalls 2 4) ∧
    (∀ (b : CoinbaseOrderBook) (cs : List UpdateCall) (k : Nat),
      getSpreadDuring b cs k k = (b.replay (cs.take k)).getSpread ∧
      getSpreadBpsDuring b cs k k = (b.replay (cs.take k)).getSpreadBps) := by
  have hbid : ((new "BTC-USD" 0).replay (tornCalls.take 2)).getBestBid = 100 := by
    rw [tornCalls_take_two]
    simp [getBestBid]
  have hask : ((new "BTC-USD" 0).replay (tornCalls.take 4)).getBestAsk = 103 := by
    rw [tornCalls_take_four]
    simp [getBestAsk]
  have hspread : getSpreadDuring (new "BTC-USD" 0) tornCalls 2 4 = 3 := by
    simp only [getSpreadDuring, hbid, hask]
    norm_num
  have hbps : getSpreadBpsDuring (new "BTC-USD" 0) tornCalls 2 4 = 60000 / 203 := by
    simp only [getSpreadBpsDuring, hbid, hask]
    norm_num
  have hlen : tornCalls.length = 4 := rfl
  refine ⟨⟨by decide, by decide⟩, hbid, hask, hspread, ?_, hbps, ?_, ?_⟩
  · intro k hk
    rw [hspread]
    rw [hlen] at hk
    rcases tornCalls_spreads "BTC-USD" 0 k hk with h | h | h | h <;> rw [h] <;> norm_num
  · intro k hk
    rw [hbps]
    rw [hlen] at hk
    rcases tornCalls_spreadBps "BTC-USD" 0 k hk with h | h | h | h <;> rw [h] <;> norm_num
  · intro b cs k
    exact ⟨rfl, rfl⟩

end CoinbaseOrderBook
